import Mathlib

/-!
Verification of the agentwatch specification against a shallow embedding of
the repository's Python sources.  Each Python function relevant to a claim is
translated into an executable Lean definition; theorems then settle the
claims.  Module references in doc comments point into the repository
(`src/agentwatch/...`).
-/

namespace AgentWatch

/-! ## Action model (`parser/models.py`)

Only the fields read by the functions verified here are carried; the
remaining `Action` fields (timestamps, token counts, security fields, the
raw map) are never inspected by those functions. -/

/-- `ToolType` enum from `parser/models.py`. -/
inductive ToolType
  | read | write | edit | bash | search | list | browser | mcp | unknown
deriving DecidableEq, Repr

/-- `Action` dataclass from `parser/models.py` (fields used by the verified
functions). `filePath`/`command` are `Option String`; Python truthiness of a
string field means "not `None` and not empty". -/
structure Action where
  toolType : ToolType
  success : Bool := true
  filePath : Option String := none
  command : Option String := none
deriving DecidableEq, Repr

/-- `Action.is_file_read`. -/
def Action.isFileRead (a : Action) : Bool := a.toolType = ToolType.read

/-- `Action.is_bash`. -/
def Action.isBash (a : Action) : Bool := a.toolType = ToolType.bash

/-- Python truthiness of an optional string (`if action.file_path:`). -/
def optStrTruthy (s : Option String) : Bool :=
  match s with
  | none => false
  | some s => s ≠ ""

/-! ## ActionBuffer queries (`parser/models.py`)

The buffer's `actions` deque is modelled by the list of its current
contents (oldest first); `last`, `first` and `bash_commands` read only that
list. -/

/-- `ActionBuffer.last(n)`: Python `list(self.actions)[-n:]`.  A negative
index slice `[-n:]` with `n > 0` drops all but the final `n` elements, but
`[-0:]` is `[0:]`, the whole list. -/
def bufferLast (actions : List Action) (n : Nat) : List Action :=
  if n = 0 then actions else actions.drop (actions.length - n)

/-- `ActionBuffer.first(n)`: Python `list(self.actions)[:n]`. -/
def bufferFirst (actions : List Action) (n : Nat) : List Action :=
  actions.take n

/-- `ActionBuffer.bash_commands(n)`: filters to truthy commands on bash
actions, then `cmds[-n:] if n else cmds` — `n = None` and `n = 0` are both
falsy, returning every command. -/
def bashCommands (actions : List Action) (n : Option Nat) : List String :=
  let cmds := (actions.filter (fun a => optStrTruthy a.command && a.isBash)).filterMap
    (fun a => a.command)
  match n with
  | none => cmds
  | some m => if m = 0 then cmds else cmds.drop (cmds.length - m)

/-! ## Status themes (`themes.py`) and health report status (`health/score.py`) -/

/-- `StatusTheme` from `themes.py` (label fields; emoji and color fields are
not read by `status_from_score`). -/
structure StatusTheme where
  level0 : String
  level1 : String
  level2 : String
  level3 : String
deriving DecidableEq, Repr

/-- `StatusTheme.status_from_score` from `themes.py`. -/
def StatusTheme.statusFromScore (t : StatusTheme) (score : Int) : String :=
  if score ≥ 80 then t.level0
  else if score ≥ 60 then t.level1
  else if score ≥ 40 then t.level2
  else t.level3

/-- The four-level band index determined by `status_from_score`'s
thresholds: level 0 for `≥80`, 1 for `≥60`, 2 for `≥40`, else 3. -/
def statusLevel (score : Int) : Nat :=
  if score ≥ 80 then 0
  else if score ≥ 60 then 1
  else if score ≥ 40 then 2
  else 3

/-- Label of a theme at a band level. -/
def StatusTheme.labelOfLevel (t : StatusTheme) : Nat → String
  | 0 => t.level0
  | 1 => t.level1
  | 2 => t.level2
  | _ => t.level3

/-- `HealthReport.status` from `health/score.py`: a three-band mapping
(`≥80` healthy, `≥50` warning, else critical). -/
def healthReportStatus (overallScore : Int) : String :=
  if overallScore ≥ 80 then "healthy"
  else if overallScore ≥ 50 then "warning"
  else "critical"

/-- Exit-code banding of the `check` CLI command (`cli.py`): `<40 → 2`,
`<60 → 1`, else `0`. -/
def checkExitCode (overallScore : Int) : Nat :=
  if overallScore < 40 then 2
  else if overallScore < 60 then 1
  else 0

/-! ## Security score (`health/score.py`, `calculate_security_score`)

`Warning`, `Severity` and `Category` live in `agentwatch/detectors/base.py`,
which is not part of the sources; they are modelled from the spec. -/

/-- Modelled from the spec: `Severity` from `detectors/base.py` (absent from
the sources): `low|medium|high|critical`. -/
inductive Severity
  | low | medium | high | critical
deriving DecidableEq, Repr

/-- Modelled from the spec: `Severity.score_impact` numeric impacts
(5/15/30/60), `detectors/base.py` being absent from the sources. -/
def Severity.scoreImpact : Severity → Int
  | .low => 5
  | .medium => 15
  | .high => 30
  | .critical => 60

/-- Modelled from the spec: warning `Category` from `detectors/base.py`
(absent from the sources). -/
inductive Category
  | progress | errors | context | goal
  | credential | injection | exfiltration | privilege | network | supplyChain
deriving DecidableEq, Repr

/-- Modelled from the spec: `Warning.is_security` — membership of the
warning's category in the six security categories. -/
def Category.isSecurity : Category → Bool
  | .credential | .injection | .exfiltration | .privilege | .network
  | .supplyChain => true
  | _ => false

/-- Detail values appearing in a warning's `details` map (the efficiency
scorer reads a numeric `usage_percent`/`rediscovery_count` and a list-valued
`forgotten_files`). -/
structure WarningDetails where
  usagePercent : Option ℚ := none
  forgottenFiles : Option (List String) := none
  rediscoveryCount : Option ℚ := none
deriving DecidableEq, Repr

/-- Modelled from the spec: `Warning` from `detectors/base.py` (fields read
by the scorers: category, severity, signal, details). -/
structure Warning where
  category : Category
  severity : Severity
  signal : String := ""
  details : WarningDetails := {}
deriving DecidableEq, Repr

/-- `Warning.is_security`. -/
def Warning.isSecurity (w : Warning) : Bool := w.category.isSecurity

/-- `calculate_security_score` from `health/score.py`. -/
def calculateSecurityScore (warnings : List Warning) : Int :=
  let securityWarnings := warnings.filter (fun w => w.isSecurity)
  if securityWarnings = [] then 100
  else if securityWarnings.any (fun w => w.severity = Severity.critical) then 0
  else
    max 0 (100 - (securityWarnings.map (fun w => w.severity.scoreImpact)).sum)

/-! ## AgentProcess (`discovery.py`) and the multi-watcher refresh
(`parser/watcher.py`)

Paths are modelled as strings; `cpu_percent`/`memory_mb` as rationals.
The field defaults mirror the dataclass defaults in `discovery.py`. -/

/-- `AgentProcess` dataclass from `discovery.py`. -/
structure AgentProcess where
  pid : Nat
  agentType : String := ""
  workingDirectory : String := ""
  logFile : Option String := none
  sessionId : Option String := none
  cpuPercent : ℚ := 0
  memoryMb : ℚ := 0
  uptime : String := ""
  command : String := ""
  parentPid : Option Nat := none
  parentAgentPid : Option Nat := none
  depth : Nat := 0
  teamId : Option Nat := none
deriving DecidableEq, Repr, Inhabited

/-- Python-dict assignment `m[k] = v` on an association list: overwrite the
value at an existing key, else append the new binding. -/
def dictSet (m : List (String × AgentProcess)) (k : String) (v : AgentProcess) :
    List (String × AgentProcess) :=
  if m.any (fun kv => kv.1 == k) then
    m.map (fun kv => if kv.1 == k then (k, v) else kv)
  else m ++ [(k, v)]

/-- The record `MultiLogWatcher.refresh_processes` builds for a stopped
agent: metadata kept, cpu/memory zeroed, `uptime` carried over, command
replaced by the sentinel; the constructor arguments not passed
(`parent_pid`, `parent_agent_pid`, `depth`, `team_id`) take the dataclass
defaults. -/
def stoppedMark (old : AgentProcess) : AgentProcess :=
  { pid := old.pid
    agentType := old.agentType
    workingDirectory := old.workingDirectory
    logFile := old.logFile
    sessionId := old.sessionId
    cpuPercent := 0
    memoryMb := 0
    uptime := old.uptime
    command := "(stopped)" }

/-- The set of log files of still-running processes
(`active_log_files` in `refresh_processes`): log paths that are present and
exist on the filesystem (`fsExists` stands for `Path.exists`). -/
def activeLogPaths (procs : List AgentProcess) (fsExists : String → Bool) :
    List String :=
  procs.filterMap fun proc =>
    match proc.logFile with
    | some p => if fsExists p then some p else none
    | none => none

/-- One iteration of the first loop of `refresh_processes`: register the
process under its log path, recording it as new when the path was untracked. -/
def refreshStep (fsExists : String → Bool)
    (st : List (String × AgentProcess) × List AgentProcess)
    (proc : AgentProcess) :
    List (String × AgentProcess) × List AgentProcess :=
  match proc.logFile with
  | none => st
  | some p =>
    if fsExists p then
      if st.1.any (fun kv => kv.1 == p) then (dictSet st.1 p proc, st.2)
      else (dictSet st.1 p proc, st.2 ++ [proc])
    else st

/-- `MultiLogWatcher.refresh_processes` from `parser/watcher.py`: returns
the updated `_process_meta` map and the list of newly added agents.  The
final map marks every tracked path missing from the active set as stopped. -/
def refreshProcesses (meta : List (String × AgentProcess))
    (procs : List AgentProcess) (fsExists : String → Bool) :
    List (String × AgentProcess) × List AgentProcess :=
  let st := procs.foldl (refreshStep fsExists) (meta, [])
  let active := activeLogPaths procs fsExists
  (st.1.map (fun kv => if kv.1 ∈ active then kv else (kv.1, stoppedMark kv.2)), st.2)

/-! ## Ancestor walking (`discovery.py`, `_walk_to_ancestor_agent`)

The `pid → ppid` table is modelled as a partial function `ℕ → Option ℕ`
(dict lookup via `.get`), the classified agent set as a list of pids. -/

/-- The ppid chain: `ppidChain ppid start k` is the pid reached after `k`
upward steps from `start` (`none` once the table has no entry). -/
def ppidChain (ppid : ℕ → Option ℕ) (start : Option ℕ) : ℕ → Option ℕ
  | 0 => start
  | k + 1 => (ppidChain ppid start k).bind ppid

/-- The while-loop of `_walk_to_ancestor_agent`, with `fuel = max_hops −
hops` (the loop body runs only while `hops < max_hops`); `visited` is the
cycle-guard set and the current pid is `none` when the chain has ended. -/
def walkAux (ppid : ℕ → Option ℕ) (agentPids : List ℕ) :
    ℕ → List ℕ → Option ℕ → Option ℕ
  | _, _, none => none
  | 0, _, some _ => none
  | fuel + 1, visited, some c =>
    if c ∈ visited then none
    else if c ∈ agentPids then some c
    else walkAux ppid agentPids fuel (c :: visited) (ppid c)

/-- `_walk_to_ancestor_agent` from `discovery.py`: start from `pid`'s
parent with `visited = {pid}`, `hops = 0`, `max_hops = 50`. -/
def walkToAncestorAgent (pid : ℕ) (ppid : ℕ → Option ℕ)
    (agentPids : List ℕ) (maxHops : ℕ := 50) : Option ℕ :=
  walkAux ppid agentPids maxHops [pid] (ppid pid)

/-! ## Efficiency scoring (`health/score.py`, `calculate_efficiency`)

Numeric values are modelled as rationals; the float literals `0.45`, `0.30`
etc. are carried as the rationals they denote.  Python's `int()` truncates
toward zero and `round()` rounds half to even; both are modelled exactly. -/

/-- Python `int()` on a number: truncation toward zero. -/
def pytrunc (q : ℚ) : ℤ := if 0 ≤ q then ⌊q⌋ else ⌈q⌉

/-- Python `round()` to an integer: round half to even. -/
def pyRoundInt (x : ℚ) : ℤ :=
  let f := ⌊x⌋
  let r := x - f
  if r < 1/2 then f
  else if 1/2 < r then f + 1
  else if 2 ∣ f then f else f + 1

/-- `EfficiencyReport` dataclass from `health/score.py`. -/
structure EfficiencyReport where
  score : ℤ
  status : String
  contextUsagePct : ℚ
  wasteRatio : ℚ
  recommendation : String
deriving DecidableEq, Repr

/-- The context-usage ratio scanned from the first CONTEXT warning with
signal `context_pressure` or `context_critical`
(`w.details.get("usage_percent", 0) / 100.0`). -/
def contextUsageRatio (warnings : List Warning) : ℚ :=
  match warnings.find? (fun w => w.category == Category.context &&
      (w.signal == "context_pressure" || w.signal == "context_critical")) with
  | some w => (w.details.usagePercent.getD 0) / 100
  | none => 0

/-- The forgotten-file count scanned from the first CONTEXT warning with
signal `context_rot` (`len(details.get("forgotten_files", []))`; the
detail value is list-typed in this model, matching what detectors emit). -/
def rotCount (warnings : List Warning) : ℕ :=
  match warnings.find? (fun w => w.category == Category.context &&
      w.signal == "context_rot") with
  | some w => (w.details.forgottenFiles.getD []).length
  | none => 0

/-- The rediscovery count scanned from the first CONTEXT warning with
signal `rediscovery` (`details.get("rediscovery_count", 0)`). -/
def rediscoveryCount (warnings : List Warning) : ℚ :=
  match warnings.find? (fun w => w.category == Category.context &&
      w.signal == "rediscovery") with
  | some w => w.details.rediscoveryCount.getD 0
  | none => 0

/-- Failed bash count: `sum(1 for a in actions if a.is_bash and not a.success)`. -/
def failedBashCount (actions : List Action) : ℕ :=
  actions.countP (fun a => a.isBash && !a.success)

/-- Whether action `i` is a duplicate read: a file-read with a truthy path
also read by some action in the window `[max 0 (i-50), i)` (the inner loop
of `calculate_efficiency` with its early `break`). -/
def isDupRead (actions : List Action) (i : ℕ) : Bool :=
  match actions[i]? with
  | none => false
  | some a =>
    a.isFileRead && optStrTruthy a.filePath &&
      (List.range' (i - 50) (i - (i - 50))).any (fun j =>
        match actions[j]? with
        | some prev => prev.isFileRead && prev.filePath == a.filePath
        | none => false)

/-- Duplicate-read count over the whole action list. -/
def dupReadCount (actions : List Action) : ℕ :=
  (List.range actions.length).countP (isDupRead actions)

/-- `waste_ratio`: `(failed_bashes + duplicate_reads) / total_actions`,
`0.0` for an empty buffer. -/
def wasteRatio (actions : List Action) : ℚ :=
  if actions.length = 0 then 0
  else (failedBashCount actions + dupReadCount actions : ℚ) / actions.length

/-- `total_penalty`: the four penalties weighted `0.45/0.20/0.10/0.25`. -/
def totalPenalty (warnings : List Warning) (actions : List Action) : ℚ :=
  contextUsageRatio warnings * (45/100)
    + min (rotCount warnings / 5 : ℚ) 1 * (20/100)
    + min (rediscoveryCount warnings / 4) 1 * (10/100)
    + min (wasteRatio actions / (3/10)) 1 * (25/100)

/-- The efficiency score: `max(0, min(100, int(100 * (1.0 - total_penalty))))`. -/
def efficiencyScore (warnings : List Warning) (actions : List Action) : ℤ :=
  max 0 (min 100 (pytrunc (100 * (1 - totalPenalty warnings actions))))

/-- Modelled from the spec: the score the claim describes, with `round`
in place of the code's `int` truncation — kept for comparison with
`efficiencyScore`. -/
def claimedEfficiencyScore (warnings : List Warning) (actions : List Action) : ℤ :=
  max 0 (min 100 (pyRoundInt (100 * (1 - totalPenalty warnings actions))))

/-- Status banding of the efficiency score. -/
def efficiencyStatus (score : ℤ) : String :=
  if score ≥ 70 then "efficient"
  else if score ≥ 40 then "degraded"
  else "wasteful"

/-- Recommendation banding of the efficiency score. -/
def efficiencyRecommendation (score : ℤ) : String :=
  if score ≥ 80 then "Session is healthy"
  else if score ≥ 60 then "Session efficiency declining - consider wrapping up soon"
  else if score ≥ 40 then "Session is degraded - start planning a fresh session"
  else "Consider starting a fresh session"

/-- Python `round(x, 1)`. -/
def roundTo1 (x : ℚ) : ℚ := (pyRoundInt (x * 10) : ℚ) / 10

/-- Python `round(x, 3)`. -/
def roundTo3 (x : ℚ) : ℚ := (pyRoundInt (x * 1000) : ℚ) / 1000

/-- `calculate_efficiency` from `health/score.py` (the buffer argument is
its action list). -/
def calculateEfficiency (warnings : List Warning) (actions : List Action) :
    EfficiencyReport :=
  let score := efficiencyScore warnings actions
  { score := score
    status := efficiencyStatus score
    contextUsagePct := roundTo1 (contextUsageRatio warnings * 100)
    wasteRatio := roundTo3 (wasteRatio actions)
    recommendation := efficiencyRecommendation score }

/-- Eight actions, one failed bash among seven plain reads: waste ratio
`1/8`, total penalty `5/48`, raw score `89.58...`. -/
def demoActs : List Action :=
  Action.mk .bash false none none ::
    List.replicate 7 (Action.mk .read true none none)

/-- A concrete tracked agent used to exercise the stopped-agent marking. -/
def oldDemo : AgentProcess :=
  { pid := 10
    agentType := "claude-code"
    workingDirectory := "/w"
    logFile := some "/l"
    sessionId := some "s"
    cpuPercent := 3
    memoryMb := 42
    uptime := "01:02"
    command := "claude"
    parentPid := some 9
    parentAgentPid := some 5
    depth := 1
    teamId := some 7 }

/-! ## Depth computation, tree order and teams (`discovery.py`)

`_compute_depths`, `_assign_team_ids`, `build_agent_tree` and `build_teams`
mutate `AgentProcess` objects in place; here each phase maps a list (and a
resolved-pid set) to the next.  `agent_by_pid` dicts hold references to the
mutated objects, so lookups are modelled against the current list. -/

/-- Python dict `{a.pid: a for a in agents}` lookup: later bindings for a
pid win. -/
def lookupPid (agents : List AgentProcess) (p : ℕ) : Option AgentProcess :=
  agents.reverse.find? (fun a => a.pid == p)

/-- Phase 1 of `_compute_depths`: agents without `parent_agent_pid` get
depth 0 and their pids enter the resolved set. -/
def rootsPass (agents : List AgentProcess) : List AgentProcess × List ℕ :=
  (agents.map (fun a => if a.parentAgentPid = none then { a with depth := 0 } else a),
   (agents.filter (fun a => a.parentAgentPid = none)).map (fun a => a.pid))

/-- One body execution of the inner `for` loop of `_compute_depths`, at
list index `i`: an unresolved agent whose parent is resolved inherits
`parent.depth + 1` and becomes resolved. -/
def childStep (st : List AgentProcess × List ℕ) (i : ℕ) :
    List AgentProcess × List ℕ :=
  match st.1[i]? with
  | none => st
  | some a =>
    if a.pid ∈ st.2 then st
    else
      match a.parentAgentPid with
      | none => st
      | some pp =>
        match lookupPid st.1 pp with
        | none => st
        | some par =>
          if par.pid ∈ st.2 then
            (st.1.set i { a with depth := par.depth + 1 }, a.pid :: st.2)
          else st

/-- One full pass of the `while changed` loop body of `_compute_depths`. -/
def childPass (st : List AgentProcess × List ℕ) : List AgentProcess × List ℕ :=
  (List.range st.1.length).foldl childStep st

/-- `_compute_depths` from `discovery.py`.  Each productive pass of the
`while changed` loop resolves at least one of the (at most `length`) pids
and an unproductive pass is the identity, so iterating the pass
`length + 1` times reaches the loop's fixpoint.  Afterwards every agent
still unresolved is promoted to a root. -/
def computeDepths (agents : List AgentProcess) : List AgentProcess :=
  let st := childPass^[agents.length + 1] (rootsPass agents)
  st.1.map (fun a =>
    if a.pid ∈ st.2 then a else { a with parentAgentPid := none, depth := 0 })

/-- The `while` walk of `_assign_team_ids`: follow `parent_agent_pid`
upward, stopping at a root or a missing parent. -/
def climb (agents : List AgentProcess) : ℕ → AgentProcess → AgentProcess
  | 0, c => c
  | fuel + 1, c =>
    match c.parentAgentPid with
    | none => c
    | some pp =>
      match lookupPid agents pp with
      | none => c
      | some par => climb agents fuel par

/-- The team id `_assign_team_ids` computes for one agent: roots
(`depth = 0`, i.e. `is_root`) take their own pid, others the pid reached by
the upward walk.  Under the forest invariant the walk exits after at most
`agents.length` steps, which bounds the fuel. -/
def teamOf (agents : List AgentProcess) (a : AgentProcess) : Option ℕ :=
  if a.depth = 0 then some a.pid
  else some ((climb agents agents.length a).pid)

/-- `_assign_team_ids` from `discovery.py`.  The in-place mutation only
writes `team_id`, which the walk never reads, so it is a pointwise map. -/
def assignTeamIds (agents : List AgentProcess) : List AgentProcess :=
  agents.map (fun a => { a with teamId := teamOf agents a })

/-- Pid order used to sort sibling lists (`children.sort(key=pid)`). -/
def pidLE (a b : AgentProcess) : Prop := a.pid ≤ b.pid

instance : DecidableRel pidLE := fun a b => Nat.decLe a.pid b.pid

instance : IsTotal AgentProcess pidLE := ⟨fun a b => Nat.le_total a.pid b.pid⟩

instance : IsTrans AgentProcess pidLE := ⟨fun _ _ _ => Nat.le_trans⟩

/-- The `by_parent` children lists of `build_agent_tree`: agents holding
the given `parent_agent_pid`, sorted by ascending pid. -/
def childrenOf (agents : List AgentProcess) (p : Option ℕ) : List AgentProcess :=
  List.insertionSort pidLE (agents.filter (fun a => a.parentAgentPid == p))

/-- The recursive `_walk` of `build_agent_tree`: emit each child, then its
subtree.  Under the forest invariant the recursion is no deeper than the
number of agents, which bounds the fuel. -/
def walkTree (agents : List AgentProcess) : ℕ → Option ℕ → List AgentProcess
  | 0, _ => []
  | fuel + 1, p =>
    (childrenOf agents p).flatMap (fun a => a :: walkTree agents fuel (some a.pid))

/-- `build_agent_tree` from `discovery.py`: preorder starting at the
`None` parent key. -/
def buildAgentTree (agents : List AgentProcess) : List AgentProcess :=
  walkTree agents (agents.length + 1) none

/-- `AgentTeam` from `discovery.py` (fields used here; `root` is optional
because the source's `next(..., agent)` fallback always finds one only on
non-empty member lists). -/
structure AgentTeam where
  teamId : ℕ
  root : Option AgentProcess
  members : List AgentProcess
deriving DecidableEq, Repr

/-- `build_teams`' grouping key: `tid = agent.team_id`, falling back to the
agent's own pid when `team_id is None`. -/
def teamKey (a : AgentProcess) : ℕ := a.teamId.getD a.pid

/-- `build_teams` from `discovery.py`: assign team ids, group agents by
team key, sort the teams by ascending id and put each team's members in
tree order.  The insertion-ordered `teams_by_id` dict followed by `sorted`
is modelled by sorting the distinct team keys: the keys are distinct, so
the sorted result is the same list. -/
def buildTeams (agents : List AgentProcess) : List AgentTeam :=
  let ag := assignTeamIds agents
  let keys := List.insertionSort (fun x y => x ≤ y) (ag.map teamKey).dedup
  keys.map (fun tid =>
    { teamId := tid
      root := ((ag.find? (fun a => a.pid == tid)).orElse
        (fun _ => (ag.filter (fun a => teamKey a == tid)).head?))
      members := buildAgentTree (ag.filter (fun a => teamKey a == tid)) })

/-- The forest invariant `_compute_depths` establishes and the later phases
rely on: distinct pids, `depth = 0 ↔ parent_agent_pid = None`, and every
non-root's parent present in the snapshot with depth one less. -/
def ForestInv (agents : List AgentProcess) : Prop :=
  (agents.map (fun a => a.pid)).Nodup ∧
  (∀ a ∈ agents, (a.parentAgentPid = none ↔ a.depth = 0)) ∧
  (∀ a ∈ agents, ∀ pp, a.parentAgentPid = some pp →
    ∃ b ∈ agents, b.pid = pp ∧ a.depth = b.depth + 1)

/-- A four-agent forest: root 1 with children 2 and 3, and 4 below 3. -/
def demoForest : List AgentProcess :=
  [{ pid := 4, parentAgentPid := some 3, depth := 2 },
   { pid := 1 },
   { pid := 3, parentAgentPid := some 1, depth := 1 },
   { pid := 2, parentAgentPid := some 1, depth := 1 }]

/-- Two teams: root 5 with child 2, and solo root 3. -/
def demoTeams : List AgentProcess :=
  [{ pid := 5 },
   { pid := 2, parentAgentPid := some 5, depth := 1 },
   { pid := 3 }]

/-- Invariant of the `_compute_depths` state: every resolved agent is
either a root with depth 0 or carries its resolved parent's depth plus
one. -/
def StInv (st : List AgentProcess × List ℕ) : Prop :=
  ∀ a ∈ st.1, a.pid ∈ st.2 →
    (a.parentAgentPid = none ∧ a.depth = 0) ∨
    (∃ par, par ∈ st.1 ∧ a.parentAgentPid = some par.pid ∧
      par.pid ∈ st.2 ∧ a.depth = par.depth + 1)

/-- State invariant of the depth passes relative to the input snapshot:
`StInv` holds and every position keeps its pid and parent pointer. -/
def DInv (agents : List AgentProcess) (st : List AgentProcess × List ℕ) : Prop :=
  StInv st ∧
  ∀ j : ℕ, (st.1[j]?).map (fun a => (a.pid, a.parentAgentPid)) =
    (agents[j]?).map (fun a => (a.pid, a.parentAgentPid))

/-- A three-agent snapshot: a root, its child, and an orphan whose declared
parent pid 99 is absent. -/
def demoAgents : List AgentProcess :=
  [{ pid := 1, depth := 5 },
   { pid := 2, parentAgentPid := some 1 },
   { pid := 3, parentAgentPid := some 99 }]

instance forestInvDecidable (agents : List AgentProcess) :
    Decidable (ForestInv agents) := by
  unfold ForestInv
  infer_instance

/-- The parent-link relation between agents of a snapshot: `plink agents x
y` holds when `y` is `x`'s parent agent. -/
def plink (agents : List AgentProcess) (x y : AgentProcess) : Prop :=
  x.parentAgentPid = some y.pid ∧ y ∈ agents

/-- The parent agent of `x` resolved through the snapshot. -/
def parentOf (agents : List AgentProcess) (x : AgentProcess) :
    Option AgentProcess :=
  match x.parentAgentPid with
  | none => none
  | some pp => lookupPid agents pp

/-- `k`-fold parent resolution (the ancestor `k` levels above `x`). -/
def ancA (agents : List AgentProcess) : ℕ → AgentProcess → Option AgentProcess
  | 0, x => some x
  | k + 1, x =>
    match parentOf agents x with
    | none => none
    | some y => ancA agents k y

/-! ## Log tailing (`parser/watcher.py`, `LogWatcher._read_new_lines`)

File contents are byte/char lists, the saved position an index into them.
JSON decoding plus `_parse_entry` is abstracted as a function
`parseLine : List Char → Option (List Action)` — `none` models a
`json.JSONDecodeError` on the stripped line, `some acts` the parsed
actions (the adapter's internal format-detection state does not affect
positions or whether a line yields its actions, which is all the claims
touch). -/

/-- Python `f.readline()` at a position: the chars up to and including the
next `'\n'`, or everything to EOF when no newline remains. -/
def readLineFrom (content : List Char) (pos : ℕ) : List Char :=
  match (content.drop pos).dropWhile (fun c => c ≠ '\n') with
  | [] => (content.drop pos).takeWhile (fun c => c ≠ '\n')
  | _ :: _ => (content.drop pos).takeWhile (fun c => c ≠ '\n') ++ ['\n']

/-- Python `str.isspace` characters relevant to `str.strip()` (ASCII
whitespace). -/
def isSpaceChar (c : Char) : Bool :=
  c = ' ' || c = '\t' || c = '\n' || c = '\r' ||
    c = Char.ofNat 11 || c = Char.ofNat 12

/-- Python `line.strip()`. -/
def pyStrip (l : List Char) : List Char :=
  ((l.dropWhile isSpaceChar).reverse.dropWhile isSpaceChar).reverse

/-- The `while True` loop of `_read_new_lines`.  State: remaining `fuel`
(each iteration consumes at least one char, so `content.length + 1`
suffices), the read position `filePos` (`f.tell()`), the saved position
`savedPos` (`self._position`) and the accumulated actions.  A line without
a trailing newline seeks back to the line start and stops without touching
`savedPos`; blank and invalid-JSON complete lines advance `savedPos` past
themselves without yielding actions. -/
def readLoop (parseLine : List Char → Option (List Action))
    (content : List Char) :
    ℕ → ℕ → ℕ → List Action → List Action × ℕ
  | 0, _, savedPos, acc => (acc, savedPos)
  | fuel + 1, filePos, savedPos, acc =>
    let line := readLineFrom content filePos
    if line = [] then (acc, savedPos)
    else if line.getLast? ≠ some '\n' then (acc, savedPos)
    else
      let newPos := filePos + line.length
      let s := pyStrip line
      if s = [] then readLoop parseLine content fuel newPos newPos acc
      else readLoop parseLine content fuel newPos newPos (acc ++ (parseLine s).getD [])

/-- `LogWatcher._read_new_lines` from `parser/watcher.py`: reads from the
saved position, returns the new actions and the updated saved position. -/
def readNewLines (parseLine : List Char → Option (List Action))
    (content : List Char) (pos : ℕ) : List Action × ℕ :=
  readLoop parseLine content (content.length + 1) pos pos []

/-- The actions one complete line with body `b` contributes: none if the
stripped line is blank or invalid JSON, its parsed actions otherwise. -/
def lineActions (parseLine : List Char → Option (List Action))
    (b : List Char) : List Action :=
  let s := pyStrip (b ++ ['\n'])
  if s = [] then [] else (parseLine s).getD []

/-- The character stream of a list of newline-terminated lines with the
given bodies. -/
def linesOf (bodies : List (List Char)) : List Char :=
  (bodies.map (fun b => b ++ ['\n'])).flatten

/-! ## Theorems for C10, C6, C9 -/

/-- C10: for `n ≥ 1`, `ActionBuffer.last n` is the suffix of the most recent
`min n length` actions in order, and `first n` is the prefix of the oldest
`min n length`; at `n = 0` the queries are asymmetric: `first 0 = []` while
`last 0` returns the whole buffer, and `bash_commands 0` returns every bash
command, exactly as `bash_commands None` does. -/
theorem bufferQueries_spec (actions : List Action) (n : Nat) :
    (1 ≤ n →
      (bufferLast actions n).length = min n actions.length ∧
      actions = actions.take (actions.length - n) ++ bufferLast actions n ∧
      (bufferFirst actions n).length = min n actions.length ∧
      actions = bufferFirst actions n ++ actions.drop n) ∧
    bufferFirst actions 0 = [] ∧
    bufferLast actions 0 = actions ∧
    bashCommands actions (some 0) = bashCommands actions none := by
  refine ⟨fun hn => ?_, by simp [bufferFirst], by simp [bufferLast], by simp [bashCommands]⟩
  have hne : n ≠ 0 := by omega
  refine ⟨?_, ?_, ?_, ?_⟩
  · simp [bufferLast, hne]
    omega
  · simp [bufferLast, hne]
  · simp [bufferFirst]
  · simp [bufferFirst]

/-- Witness for C10's theorem at a concrete buffer. -/
theorem bufferQueries_spec_witness :
    (1 ≤ 2) ∧
      bufferLast [Action.mk .read true none none, Action.mk .bash false none none,
        Action.mk .edit true none none] 2 =
        [Action.mk .bash false none none, Action.mk .edit true none none] :=
  ⟨by decide,
    by
      have h := (bufferQueries_spec [Action.mk .read true none none,
        Action.mk .bash false none none, Action.mk .edit true none none] 2).1 (by decide)
      decide⟩

/-- C6 counterexample: scores 59 and 45 sit in the same four-band level
(`L2`), yet `HealthReport.status` distinguishes them ("warning" vs
"critical"), so the report's status cannot be derived from the shared
four-level banding. -/
theorem healthStatus_not_band_derived :
    statusLevel 59 = statusLevel 45 ∧
      healthReportStatus 59 ≠ healthReportStatus 45 := by
  constructor
  · decide
  · simp [healthReportStatus]

/-- C6 (amended): `status_from_score` is the four-level banding
(`≥80 → L0`, `≥60 → L1`, `≥40 → L2`, else `L3`) and the CLI `check` exit
code mirrors those bands (`<40 → 2`, `<60 → 1`, else `0`); but
`HealthReport.status` uses its own three-level banding (`≥80` healthy,
`≥50` warning, else critical) rather than the shared four-level one. -/
theorem statusBanding_spec (t : StatusTheme) (s : Int) :
    t.statusFromScore s = t.labelOfLevel (statusLevel s) ∧
    (statusLevel s = 0 ↔ 80 ≤ s) ∧
    (statusLevel s = 1 ↔ 60 ≤ s ∧ s < 80) ∧
    (statusLevel s = 2 ↔ 40 ≤ s ∧ s < 60) ∧
    (statusLevel s = 3 ↔ s < 40) ∧
    (checkExitCode s = 2 ↔ statusLevel s = 3) ∧
    (checkExitCode s = 1 ↔ statusLevel s = 2) ∧
    (checkExitCode s = 0 ↔ statusLevel s ≤ 1) ∧
    healthReportStatus s =
      (if s ≥ 80 then "healthy" else if s ≥ 50 then "warning" else "critical") := by
  unfold StatusTheme.statusFromScore statusLevel StatusTheme.labelOfLevel
    checkExitCode healthReportStatus
  split_ifs <;> simp_all <;> omega

/-- C9: `calculate_security_score` returns 100 when there is no
security-category warning, 0 as soon as any security warning is CRITICAL,
and otherwise 100 minus the summed score impacts of the security warnings,
floored at 0. -/
theorem calculateSecurityScore_spec (warnings : List Warning) :
    (warnings.filter (fun w => w.isSecurity) = [] →
      calculateSecurityScore warnings = 100) ∧
    ((∃ w ∈ warnings, w.isSecurity ∧ w.severity = Severity.critical) →
      calculateSecurityScore warnings = 0) ∧
    (warnings.filter (fun w => w.isSecurity) ≠ [] →
      (∀ w ∈ warnings, w.isSecurity → w.severity ≠ Severity.critical) →
      calculateSecurityScore warnings =
        max 0 (100 - ((warnings.filter (fun w => w.isSecurity)).map
          (fun w => w.severity.scoreImpact)).sum)) := by
  refine ⟨fun h => ?_, fun h => ?_, fun h1 h2 => ?_⟩
  · simp [calculateSecurityScore, h]
  · obtain ⟨w, hw, hsec, hcrit⟩ := h
    have hmem : w ∈ warnings.filter (fun w => w.isSecurity) :=
      List.mem_filter.mpr ⟨hw, hsec⟩
    have hne : warnings.filter (fun w => w.isSecurity) ≠ [] :=
      List.ne_nil_of_mem hmem
    have hany : (warnings.filter (fun w => w.isSecurity)).any
        (fun w => w.severity = Severity.critical) = true := by
      rw [List.any_eq_true]
      exact ⟨w, hmem, by simp [hcrit]⟩
    simp [calculateSecurityScore, hne, hany]
  · have hany : (warnings.filter (fun w => w.isSecurity)).any
        (fun w => w.severity = Severity.critical) = false := by
      rw [List.any_eq_false]
      intro w hw
      obtain ⟨hmem, hsec⟩ := List.mem_filter.mp hw
      simp [h2 w hmem hsec]
    simp [calculateSecurityScore, h1, hany]

/-- Witness for C9's theorem: one medium and one high security warning score
`100 - (15 + 30) = 55`; a critical one zeroes the score. -/
theorem calculateSecurityScore_spec_witness :
    calculateSecurityScore
        [Warning.mk .credential .medium "" {}, Warning.mk .network .high "" {}] = 55 ∧
      calculateSecurityScore [Warning.mk .injection .critical "" {}] = 0 := by
  constructor
  · have h := (calculateSecurityScore_spec
      [Warning.mk .credential .medium "" {}, Warning.mk .network .high "" {}]).2.2
      (by decide) (by decide)
    rw [h]
    decide
  · exact (calculateSecurityScore_spec [Warning.mk .injection .critical "" {}]).2.1
      ⟨Warning.mk .injection .critical "" {}, by decide, by decide, rfl⟩

/-! ## Theorems for C2 -/

/-- A chain started at `none` stays `none`. -/
theorem ppidChain_none (ppid : ℕ → Option ℕ) (k : ℕ) :
    ppidChain ppid none k = none := by
  induction k with
  | zero => rfl
  | succ k ih => simp [ppidChain, ih]

/-- Shifting the chain start one step up the table. -/
theorem ppidChain_shift (ppid : ℕ → Option ℕ) (c : ℕ) (k : ℕ) :
    ppidChain ppid (some c) (k + 1) = ppidChain ppid (ppid c) k := by
  induction k with
  | zero => rfl
  | succ k ih =>
    show (ppidChain ppid (some c) (k + 1)).bind ppid =
      (ppidChain ppid (ppid c) k).bind ppid
    rw [ih]

/-- Full characterization of the walker loop: it returns `some q` exactly
when `q` is the first classified agent on the chain, reached within the
remaining fuel, with no pid repeating and nothing on the way in the visited
set. -/
theorem walkAux_eq_some_iff (ppid : ℕ → Option ℕ) (agentPids : List ℕ) :
    ∀ (fuel : ℕ) (visited : List ℕ) (cur : Option ℕ) (q : ℕ),
      walkAux ppid agentPids fuel visited cur = some q ↔
        ∃ k, k < fuel ∧ ppidChain ppid cur k = some q ∧ q ∈ agentPids ∧
          (∀ j r, j < k → ppidChain ppid cur j = some r → r ∉ agentPids) ∧
          (∀ j r, j ≤ k → ppidChain ppid cur j = some r →
            r ∉ visited ∧ ∀ i, i < j → ppidChain ppid cur i ≠ some r) := by
  intro fuel
  induction fuel with
  | zero =>
    intro visited cur q
    constructor
    · intro h
      cases cur <;> simp [walkAux] at h
    · rintro ⟨k, hk, -⟩
      omega
  | succ f ih =>
    intro visited cur q
    cases cur with
    | none =>
      simp only [walkAux]
      constructor
      · intro h; exact absurd h (by simp)
      · rintro ⟨k, -, hchain, -⟩
        rw [ppidChain_none] at hchain
        exact absurd hchain (by simp)
    | some c =>
      by_cases hv : c ∈ visited
      · simp only [walkAux, if_pos hv]
        constructor
        · intro h; exact absurd h (by simp)
        · rintro ⟨k, -, -, -, -, hvis⟩
          exact absurd ((hvis 0 c (Nat.zero_le _) rfl).1) (by simp [hv])
      · by_cases ha : c ∈ agentPids
        · simp only [walkAux, if_neg hv, if_pos ha]
          constructor
          · intro h
            obtain rfl : c = q := by simpa using h
            refine ⟨0, Nat.succ_pos _, rfl, ha, by omega, ?_⟩
            intro j r hj hchain
            obtain rfl : j = 0 := Nat.le_zero.mp hj
            obtain rfl : c = r := by simpa [ppidChain] using hchain
            exact ⟨hv, by omega⟩
          · rintro ⟨k, hk, hchain, hq, hnag, -⟩
            rcases Nat.eq_zero_or_pos k with rfl | hkpos
            · have hcq : c = q := by simpa [ppidChain] using hchain
              rw [hcq]
            · exact absurd ha (hnag 0 c hkpos rfl)
        · simp only [walkAux, if_neg hv, if_neg ha]
          rw [ih (c :: visited) (ppid c) q]
          constructor
          · rintro ⟨k, hk, hchain, hq, hnag, hvis⟩
            refine ⟨k + 1, by omega, ?_, hq, ?_, ?_⟩
            · rw [ppidChain_shift]; exact hchain
            · intro j r hj hchainj
              match j with
              | 0 =>
                obtain rfl : c = r := by simpa [ppidChain] using hchainj
                exact ha
              | j' + 1 =>
                rw [ppidChain_shift] at hchainj
                exact hnag j' r (by omega) hchainj
            · intro j r hj hchainj
              match j with
              | 0 =>
                obtain rfl : c = r := by simpa [ppidChain] using hchainj
                exact ⟨hv, by omega⟩
              | j' + 1 =>
                rw [ppidChain_shift] at hchainj
                obtain ⟨hnv, hdist⟩ := hvis j' r (by omega) hchainj
                have hrc : r ≠ c := by
                  intro hEq
                  exact hnv (hEq ▸ List.mem_cons_self c visited)
                refine ⟨fun hvmem => hnv (List.mem_cons_of_mem _ hvmem), ?_⟩
                intro i hi
                match i with
                | 0 =>
                  simp only [ppidChain, ne_eq, Option.some.injEq]
                  exact fun hEq => hrc hEq.symm
                | i' + 1 =>
                  rw [ppidChain_shift]
                  exact hdist i' (by omega)
          · rintro ⟨k, hk, hchain, hq, hnag, hvis⟩
            match k with
            | 0 =>
              obtain rfl : c = q := by simpa [ppidChain] using hchain
              exact absurd hq ha
            | k' + 1 =>
              rw [ppidChain_shift] at hchain
              refine ⟨k', by omega, hchain, hq, ?_, ?_⟩
              · intro j r hj hchainj
                have := hnag (j + 1) r (by omega)
                rw [ppidChain_shift] at this
                exact this hchainj
              · intro j r hj hchainj
                have hj1 := hvis (j + 1) r (by omega)
                rw [ppidChain_shift] at hj1
                obtain ⟨hnv, hdist⟩ := hj1 hchainj
                have hrc : r ≠ c := by
                  intro hEq
                  have h0 := hdist 0 (by omega)
                  simp only [ppidChain] at h0
                  exact h0 (by rw [hEq])
                refine ⟨by simp [hrc, hnv], ?_⟩
                intro i hi
                have := hdist (i + 1) (by omega)
                rw [ppidChain_shift] at this
                exact this

/-- C2: `_walk_to_ancestor_agent` (a total function of its fuel-bounded
loop, hence terminating on every pid→ppid table) returns `some q` exactly
when `q` is the nearest classified-agent ancestor of `pid`: `q` sits `k ≤
50` hops up the ppid chain, every strictly earlier ancestor is not an
agent (so arbitrarily many non-agent intermediaries are skipped), and no
pid repeats on the way (cycle-freedom up to `q`); consequently it returns
`none` when the chain ends, revisits a pid, or exhausts the 50-hop cap
before reaching an agent. -/
theorem walkToAncestorAgent_spec (ppid : ℕ → Option ℕ) (agentPids : List ℕ)
    (pid q : ℕ) :
    walkToAncestorAgent pid ppid agentPids = some q ↔
      ∃ k, 1 ≤ k ∧ k ≤ 50 ∧ ppidChain ppid (some pid) k = some q ∧
        q ∈ agentPids ∧
        (∀ j r, 1 ≤ j → j < k → ppidChain ppid (some pid) j = some r →
          r ∉ agentPids) ∧
        (∀ j r, j ≤ k → ppidChain ppid (some pid) j = some r →
          ∀ i, i < j → ppidChain ppid (some pid) i ≠ some r) := by
  unfold walkToAncestorAgent
  rw [walkAux_eq_some_iff]
  constructor
  · rintro ⟨k, hk, hchain, hq, hnag, hvis⟩
    refine ⟨k + 1, by omega, by omega, ?_, hq, ?_, ?_⟩
    · rw [ppidChain_shift]; exact hchain
    · intro j r hj1 hjk hchainj
      match j with
      | j' + 1 =>
        rw [ppidChain_shift] at hchainj
        exact hnag j' r (by omega) hchainj
    · intro j r hj hchainj i hi
      match j with
      | 0 => omega
      | j' + 1 =>
        rw [ppidChain_shift] at hchainj
        obtain ⟨hnv, hdist⟩ := hvis j' r (by omega) hchainj
        match i with
        | 0 =>
          simp only [ppidChain, ne_eq, Option.some.injEq]
          intro hEq
          exact hnv (by simp [hEq])
        | i' + 1 =>
          rw [ppidChain_shift]
          exact hdist i' (by omega)
  · rintro ⟨k, hk1, hk50, hchain, hq, hnag, hvis⟩
    match k, hk1 with
    | k' + 1, _ =>
      rw [ppidChain_shift] at hchain
      refine ⟨k', by omega, hchain, hq, ?_, ?_⟩
      · intro j r hj hchainj
        have := hnag (j + 1) r (by omega) (by omega)
        rw [ppidChain_shift] at this
        exact this hchainj
      · intro j r hj hchainj
        have hd := hvis (j + 1) r (by omega)
        rw [ppidChain_shift] at hd
        have hdist := hd hchainj
        have hrp : r ≠ pid := by
          intro hEq
          have h0 := hdist 0 (by omega)
          simp only [ppidChain] at h0
          exact h0 (by rw [hEq])
        refine ⟨by simp [hrp], ?_⟩
        intro i hi
        have := hdist (i + 1) (by omega)
        rw [ppidChain_shift] at this
        exact this

/-! ## Theorems for C5 -/

/-- `takeWhile (≠ '\n')` over a newline-free body stops exactly at the
appended newline. -/
theorem takeWhile_body (body rest : List Char) (h : '\n' ∉ body) :
    (body ++ '\n' :: rest).takeWhile (fun c => c ≠ '\n') = body := by
  induction body with
  | nil => simp
  | cons c cs ih =>
    have hc : c ≠ '\n' := fun hEq => h (hEq ▸ List.mem_cons_self c cs)
    have ih' := ih (fun hm => h (List.mem_cons_of_mem c hm))
    simpa [List.takeWhile_cons, hc] using ih'

/-- `dropWhile (≠ '\n')` over a newline-free body lands on the newline. -/
theorem dropWhile_body (body rest : List Char) (h : '\n' ∉ body) :
    (body ++ '\n' :: rest).dropWhile (fun c => c ≠ '\n') = '\n' :: rest := by
  induction body with
  | nil => simp
  | cons c cs ih =>
    have hc : c ≠ '\n' := fun hEq => h (hEq ▸ List.mem_cons_self c cs)
    have ih' := ih (fun hm => h (List.mem_cons_of_mem c hm))
    simpa [List.dropWhile_cons, hc] using ih'

/-- Reading at the start of a complete line returns it with its newline. -/
theorem readLineFrom_line (u body rest : List Char) (h : '\n' ∉ body) :
    readLineFrom (u ++ (body ++ '\n' :: rest)) u.length = body ++ ['\n'] := by
  unfold readLineFrom
  rw [List.drop_left, takeWhile_body body rest h, dropWhile_body body rest h]

/-- `takeWhile (≠ '\n')` keeps a newline-free list whole. -/
theorem takeWhile_noNl (P : List Char) (h : '\n' ∉ P) :
    P.takeWhile (fun c => c ≠ '\n') = P := by
  refine List.takeWhile_eq_self_iff.mpr ?_
  intro c hc
  simp only [ne_eq, decide_eq_true_eq]
  intro hEq
  exact h (hEq ▸ hc)

/-- `dropWhile (≠ '\n')` consumes a newline-free list entirely. -/
theorem dropWhile_noNl (P : List Char) (h : '\n' ∉ P) :
    P.dropWhile (fun c => c ≠ '\n') = [] := by
  refine List.dropWhile_eq_nil_iff.mpr ?_
  intro c hc
  simp only [ne_eq, decide_eq_true_eq]
  intro hEq
  exact h (hEq ▸ hc)

/-- Reading at the start of a newline-free tail returns the tail verbatim
(no newline appended). -/
theorem readLineFrom_partial (u P : List Char) (h : '\n' ∉ P) :
    readLineFrom (u ++ P) u.length = P := by
  unfold readLineFrom
  rw [List.drop_left, takeWhile_noNl P h, dropWhile_noNl P h]

/-- Unfolding of `linesOf` at a cons. -/
theorem linesOf_cons (b : List Char) (bs : List (List Char)) :
    linesOf (b :: bs) = b ++ '\n' :: linesOf bs := by
  simp [linesOf, List.append_assoc]

/-- A line stream has at least as many characters as lines. -/
theorem length_le_linesOf (bodies : List (List Char)) :
    bodies.length ≤ (linesOf bodies).length := by
  induction bodies with
  | nil => simp [linesOf]
  | cons b bs ih =>
    rw [linesOf_cons]
    simp only [List.length_cons, List.length_append, List.length_cons]
    omega

/-- The reading loop consumes exactly the complete lines in front of a
newline-free tail: it accumulates each line's actions and moves the saved
position past the last complete line, leaving the tail unread. -/
theorem readLoop_run (parseLine : List Char → Option (List Action)) :
    ∀ (bodies : List (List Char)) (u P : List Char) (acc : List Action)
      (fuel : ℕ),
      (∀ b ∈ bodies, '\n' ∉ b) → '\n' ∉ P → bodies.length < fuel →
      readLoop parseLine (u ++ (linesOf bodies ++ P)) fuel u.length u.length acc =
        (acc ++ bodies.flatMap (lineActions parseLine),
          u.length + (linesOf bodies).length) := by
  intro bodies
  induction bodies with
  | nil =>
    intro u P acc fuel _ hP hfuel
    match fuel, hfuel with
    | f + 1, _ =>
      simp only [linesOf, List.map_nil, List.flatten_nil, List.nil_append,
        List.flatMap_nil, List.append_nil, List.length_nil, Nat.add_zero]
      cases P with
      | nil =>
        have hline : readLineFrom (u ++ ([] : List Char)) u.length = [] :=
          readLineFrom_partial u [] (by simp)
        simp only [readLoop, hline]
        simp
      | cons p ps =>
        have hline := readLineFrom_partial u (p :: ps) hP
        have hlastm : ¬((p :: ps).getLast? = some '\n') := by
          intro hEq
          exact hP (List.mem_of_mem_getLast? hEq)
        simp only [readLoop, hline]
        rw [if_neg (by simp), if_pos hlastm]
  | cons b bs ih =>
    intro u P acc fuel hb hP hfuel
    match fuel, hfuel with
    | f + 1, hf =>
      have hbn : '\n' ∉ b := hb b (List.mem_cons_self b bs)
      have hcontent : linesOf (b :: bs) ++ P = b ++ '\n' :: (linesOf bs ++ P) := by
        rw [linesOf_cons]
        simp
      rw [hcontent]
      have hline := readLineFrom_line u b (linesOf bs ++ P) hbn
      have hne : ¬(b ++ ['\n'] = []) := by simp
      have hlast : ¬¬((b ++ ['\n']).getLast? = some '\n') := by
        simp [List.getLast?_concat]
      simp only [readLoop, hline]
      rw [if_neg hne, if_neg hlast]
      have hupos : u.length + (b ++ ['\n']).length = (u ++ (b ++ ['\n'])).length := by
        simp
      have hassoc : u ++ (b ++ '\n' :: (linesOf bs ++ P)) =
          (u ++ (b ++ ['\n'])) ++ (linesOf bs ++ P) := by
        simp
      have hbs : ∀ x ∈ bs, '\n' ∉ x := fun x hx => hb x (List.mem_cons_of_mem b hx)
      have hflen : bs.length < f := by
        simp only [List.length_cons] at hf
        omega
      have happly := fun acc' =>
        ih (u ++ (b ++ ['\n'])) P acc' f hbs hP hflen
      have hgoalpos : (u ++ (b ++ ['\n'])).length + (linesOf bs).length =
          u.length + (linesOf (b :: bs)).length := by
        rw [linesOf_cons]
        simp
        omega
      rw [hupos, hassoc]
      cases hs : pyStrip (b ++ ['\n']) with
      | nil =>
        rw [if_pos rfl, happly acc, hgoalpos]
        simp [lineActions, hs]
      | cons s ss =>
        rw [if_neg (by simp), happly (acc ++ (parseLine (s :: ss)).getD []), hgoalpos]
        simp [lineActions, hs]

/-- C5: `_read_new_lines` parses only newline-terminated lines.  First
call: with complete lines `linesOf bodies` followed by a newline-free
partial tail `P`, it returns exactly the complete lines' actions (an
invalid-JSON or blank line contributes no action yet its bytes are
consumed) and saves the position at the start of `P`.  Second call: once
the partial line has been completed to `P ++ Q ++ '\n'`, reading from the
saved position returns that line's actions and advances the position past
its newline. -/
theorem readNewLines_spec (parseLine : List Char → Option (List Action))
    (bodies : List (List Char)) (u P Q : List Char)
    (hb : ∀ b ∈ bodies, '\n' ∉ b) (hP : '\n' ∉ P) (hQ : '\n' ∉ Q) :
    readNewLines parseLine (u ++ (linesOf bodies ++ P)) u.length =
      (bodies.flatMap (lineActions parseLine),
        u.length + (linesOf bodies).length) ∧
    readNewLines parseLine (u ++ (linesOf bodies ++ ((P ++ Q) ++ ['\n'])))
        (u.length + (linesOf bodies).length) =
      (lineActions parseLine (P ++ Q),
        (u.length + (linesOf bodies).length) + ((P ++ Q).length + 1)) := by
  constructor
  · unfold readNewLines
    refine readLoop_run parseLine bodies u P [] _ hb hP ?_
    have h1 := length_le_linesOf bodies
    simp only [List.length_append]
    omega
  · have hPQ : '\n' ∉ P ++ Q := by
      intro hm
      rcases List.mem_append.mp hm with hm | hm
      · exact hP hm
      · exact hQ hm
    have hone : ∀ x ∈ [P ++ Q], '\n' ∉ x := by
      intro x hx
      rw [List.mem_singleton.mp hx]
      exact hPQ
    have hshape : u ++ (linesOf bodies ++ ((P ++ Q) ++ ['\n'])) =
        (u ++ linesOf bodies) ++ (linesOf [P ++ Q] ++ []) := by
      simp [linesOf]
    have hpos : u.length + (linesOf bodies).length = (u ++ linesOf bodies).length := by
      simp
    rw [hshape, hpos]
    unfold readNewLines
    have hrun := readLoop_run parseLine [P ++ Q] (u ++ linesOf bodies) [] []
      (((u ++ linesOf bodies) ++ (linesOf [P ++ Q] ++ [])).length + 1)
      hone (by simp)
      (by
        have h2 : 0 < (linesOf [P ++ Q]).length := by simp [linesOf]
        simp only [List.length_append, List.length_cons, List.length_nil]
        omega)
    rw [hrun]
    simp [linesOf]
    omega

/-- Witness for C5's theorem: two complete lines (one valid JSON producing
one action, one invalid) followed by partial `"p"`, then completed by
`"q\n"`.  The first call yields only the valid line's action and stops at
the partial line's start; the second call yields the completed line's
action and moves past it. -/
theorem readNewLines_spec_witness :
    (∀ b ∈ [['4', '2'], ['x']], '\n' ∉ b) ∧ '\n' ∉ ['p'] ∧ '\n' ∉ ['q'] ∧
    readNewLines
        (fun s => if s = ['4', '2'] ∨ s = ['p', 'q'] then
          some [Action.mk .read true none none] else none)
        (linesOf [['4', '2'], ['x']] ++ ['p']) 0 =
      ([Action.mk .read true none none], 5) ∧
    readNewLines
        (fun s => if s = ['4', '2'] ∨ s = ['p', 'q'] then
          some [Action.mk .read true none none] else none)
        (linesOf [['4', '2'], ['x']] ++ ((['p'] ++ ['q']) ++ ['\n'])) 5 =
      ([Action.mk .read true none none], 8) := by
  have h := readNewLines_spec
    (fun s => if s = ['4', '2'] ∨ s = ['p', 'q'] then
      some [Action.mk .read true none none] else none)
    [['4', '2'], ['x']] [] ['p'] ['q']
    (by decide) (by decide) (by decide)
  have hlen : (linesOf [['4', '2'], ['x']]).length = 5 := by decide
  refine ⟨by decide, by decide, by decide, ?_, ?_⟩
  · have h1 := h.1
    simp only [List.nil_append, List.length_nil, Nat.zero_add, hlen] at h1
    rw [h1]
    refine Prod.ext ?_ ?_ <;> decide
  · have h2 := h.2
    simp only [List.nil_append, List.length_nil, Nat.zero_add, hlen] at h2
    rw [h2]
    refine Prod.ext ?_ ?_ <;> decide

/-! ## Theorems for C7 -/

/-- Band characterization of `efficiencyStatus`. -/
theorem efficiencyStatus_iff (s : ℤ) :
    (efficiencyStatus s = "efficient" ↔ 70 ≤ s) ∧
    (efficiencyStatus s = "degraded" ↔ 40 ≤ s ∧ s < 70) ∧
    (efficiencyStatus s = "wasteful" ↔ s < 40) := by
  unfold efficiencyStatus
  split_ifs <;> simp_all
  all_goals omega

/-- `isDupRead` agrees with its propositional description: a file-read with
a truthy path whose path is also read somewhere in the previous 50 actions. -/
theorem isDupRead_iff (actions : List Action) (i : ℕ) :
    isDupRead actions i = true ↔
      ∃ a, actions[i]? = some a ∧ a.isFileRead = true ∧
        optStrTruthy a.filePath = true ∧
        ∃ j, i - 50 ≤ j ∧ j < i ∧ ∃ prev, actions[j]? = some prev ∧
          prev.isFileRead = true ∧ prev.filePath = a.filePath := by
  unfold isDupRead
  cases hi : actions[i]? with
  | none => simp
  | some a =>
    simp only [Option.some.injEq, Bool.and_eq_true, List.any_eq_true]
    constructor
    · rintro ⟨⟨hread, hpath⟩, j, hjmem, hj⟩
      have hjr := List.mem_range'_1.mp hjmem
      have hjlt : j < i := by omega
      refine ⟨a, rfl, hread, hpath, j, hjr.1, hjlt, ?_⟩
      cases hjq : actions[j]? with
      | none => rw [hjq] at hj; exact absurd hj (by simp)
      | some prev =>
        rw [hjq] at hj
        simp only [Bool.and_eq_true, beq_iff_eq] at hj
        exact ⟨prev, rfl, hj.1, hj.2⟩
    · rintro ⟨a', ha', hread, hpath, j, hle, hlt, prev, hprev, hpread, hpeq⟩
      obtain rfl : a' = a := ha'.symm
      refine ⟨⟨hread, hpath⟩, j, List.mem_range'_1.mpr ⟨hle, by omega⟩, ?_⟩
      rw [hprev]
      simp [hpread, hpeq]

/-- C7 counterexample: with no warnings and eight actions of which one is a
failed bash, the raw value `100·(1 − total_penalty)` is `4300/48 ≈ 89.58`;
the code's `int()` truncation yields 89 while the claimed `round` yields 90. -/
theorem efficiencyScore_counterexample :
    (calculateEfficiency [] demoActs).score = 89 ∧
      claimedEfficiencyScore [] demoActs = 90 ∧
      (calculateEfficiency [] demoActs).score ≠ claimedEfficiencyScore [] demoActs := by
  have hfb : failedBashCount demoActs = 1 := by decide
  have hdr : dupReadCount demoActs = 0 := by decide
  have hlen : demoActs.length = 8 := by decide
  have hwr : wasteRatio demoActs = 1/8 := by
    unfold wasteRatio
    rw [hlen, hfb, hdr]
    norm_num
  have htp : totalPenalty [] demoActs = 5/48 := by
    unfold totalPenalty contextUsageRatio rotCount rediscoveryCount
    rw [hwr]
    norm_num [min_def]
  have hscore : (calculateEfficiency [] demoActs).score = 89 := by
    show efficiencyScore [] demoActs = 89
    unfold efficiencyScore pytrunc
    rw [htp]
    norm_num [min_def, max_def]
  have hclaim : claimedEfficiencyScore [] demoActs = 90 := by
    unfold claimedEfficiencyScore pyRoundInt
    rw [htp]
    norm_num [min_def, max_def]
  exact ⟨hscore, hclaim, by rw [hscore, hclaim]; decide⟩

/-- C7 (amended): the efficiency score is `int(100·(1 − total_penalty))`
truncated toward zero and clamped to `[0, 100]` (not rounded to nearest),
where the total penalty combines the pressure, rot, rediscovery and waste
penalties with weights `(0.45, 0.20, 0.10, 0.25)`,
`waste_ratio = (failed_bash + duplicate_reads) / total_actions`, a duplicate
read is a file-read whose path matches a read among the previous 50 actions,
and `waste_penalty = min(waste_ratio / 0.30, 1)`; the status is
"efficient" for score ≥ 70, "degraded" for ≥ 40, else "wasteful". -/
theorem calculateEfficiency_spec (warnings : List Warning) (actions : List Action) :
    (calculateEfficiency warnings actions).score =
        max 0 (min 100 (pytrunc (100 * (1 - totalPenalty warnings actions)))) ∧
    totalPenalty warnings actions =
        contextUsageRatio warnings * (45/100)
          + min (rotCount warnings / 5 : ℚ) 1 * (20/100)
          + min (rediscoveryCount warnings / 4) 1 * (10/100)
          + min (wasteRatio actions / (3/10)) 1 * (25/100) ∧
    (actions ≠ [] →
      wasteRatio actions =
        (failedBashCount actions + dupReadCount actions : ℚ) / actions.length) ∧
    dupReadCount actions = (List.range actions.length).countP (isDupRead actions) ∧
    (∀ i : ℕ, isDupRead actions i = true ↔
        ∃ a, actions[i]? = some a ∧ a.isFileRead = true ∧
          optStrTruthy a.filePath = true ∧
          ∃ j, i - 50 ≤ j ∧ j < i ∧ ∃ prev, actions[j]? = some prev ∧
            prev.isFileRead = true ∧ prev.filePath = a.filePath) ∧
    ((calculateEfficiency warnings actions).status = "efficient" ↔
        70 ≤ (calculateEfficiency warnings actions).score) ∧
    ((calculateEfficiency warnings actions).status = "degraded" ↔
        40 ≤ (calculateEfficiency warnings actions).score ∧
          (calculateEfficiency warnings actions).score < 70) ∧
    ((calculateEfficiency warnings actions).status = "wasteful" ↔
        (calculateEfficiency warnings actions).score < 40) := by
  refine ⟨rfl, rfl, ?_, rfl, isDupRead_iff actions, ?_, ?_, ?_⟩
  · intro hne
    unfold wasteRatio
    rw [if_neg (by simpa using hne)]
  · exact (efficiencyStatus_iff _).1
  · exact (efficiencyStatus_iff _).2.1
  · exact (efficiencyStatus_iff _).2.2

/-- Witness for C7's amended theorem at the concrete eight-action buffer. -/
theorem calculateEfficiency_spec_witness :
    demoActs ≠ [] ∧
      wasteRatio demoActs =
        (failedBashCount demoActs + dupReadCount demoActs : ℚ) / demoActs.length :=
  ⟨by decide, (calculateEfficiency_spec [] demoActs).2.2.1 (by decide)⟩

/-! ## Theorems for C8 -/

/-- `dictSet` at a key `k` keeps every binding whose key differs from `k`. -/
theorem dictSet_mem_of_ne {m : List (String × AgentProcess)} {path : String}
    {old : AgentProcess} (k : String) (v : AgentProcess)
    (hne : path ≠ k) (hmem : (path, old) ∈ m) : (path, old) ∈ dictSet m k v := by
  unfold dictSet
  split
  · exact List.mem_map.mpr ⟨(path, old), hmem, by simp [hne]⟩
  · exact List.mem_append_left _ hmem

/-- The first loop of `refresh_processes` only rewrites bindings at active
log paths, so a binding at an inactive path survives it. -/
theorem refresh_loop_preserves {path : String} {old : AgentProcess}
    (fsExists : String → Bool) :
    ∀ (procs : List AgentProcess)
      (st : List (String × AgentProcess) × List AgentProcess),
      (path, old) ∈ st.1 → path ∉ activeLogPaths procs fsExists →
      (path, old) ∈ (procs.foldl (refreshStep fsExists) st).1 := by
  intro procs
  induction procs with
  | nil => intro st h _; exact h
  | cons proc rest ih =>
    intro st hmem hpath
    rw [List.foldl_cons]
    have hrest : path ∉ activeLogPaths rest fsExists := by
      intro hr
      exact hpath (by
        unfold activeLogPaths at hr ⊢
        rw [List.filterMap_cons]
        split <;> simp [hr])
    refine ih _ ?_ hrest
    unfold refreshStep
    split
    · exact hmem
    · rename_i p hp
      split
      · rename_i hex
        have hpne : path ≠ p := by
          intro hEq
          subst hEq
          refine hpath ?_
          unfold activeLogPaths
          rw [List.filterMap_cons]
          simp [hp, hex]
        split <;> exact dictSet_mem_of_ne p proc hpne hmem
      · exact hmem

/-- C8 counterexample: a tracked agent with `uptime = "01:02"`, `depth = 1`,
`parent_agent_pid = 5`, `team_id = 7`, `parent_pid = 9` is marked stopped
when the snapshot is empty, and the result keeps its non-empty uptime (the
claim says the uptime string is zeroed) while depth, parent pids and team id
are reset to the defaults (the claim says they are unchanged). -/
theorem refreshStopped_counterexample :
    ((refreshProcesses [("/l", oldDemo)] [] (fun _ => true)).1.map
        (fun kv => (kv.2.uptime, kv.2.depth, kv.2.parentAgentPid, kv.2.teamId,
          kv.2.parentPid, kv.2.command))) =
      [("01:02", 0, none, none, none, "(stopped)")] ∧
    oldDemo.uptime = "01:02" ∧ ("01:02" : String) ≠ "" ∧
    oldDemo.depth = 1 ∧ oldDemo.parentAgentPid = some 5 ∧
    oldDemo.teamId = some 7 ∧ oldDemo.parentPid = some 9 := by
  refine ⟨?_, rfl, by decide, rfl, rfl, rfl, rfl⟩
  rfl

/-- C8 (amended): a tracked binding whose log path is not among the active
log files of the new snapshot stays in the watch map (never removed), bound
to a record that keeps pid, agent type, working directory, log file, session
id and the uptime string, zeroes cpu and memory, replaces the command with
`"(stopped)"`, and resets the raw parent pid, parent agent pid, depth and
team id to their dataclass defaults (`None`, `None`, `0`, `None`). -/
theorem refreshStopped_spec (meta : List (String × AgentProcess))
    (procs : List AgentProcess) (fsExists : String → Bool)
    (path : String) (old : AgentProcess)
    (hmem : (path, old) ∈ meta)
    (hinactive : path ∉ activeLogPaths procs fsExists) :
    (path,
      { pid := old.pid
        agentType := old.agentType
        workingDirectory := old.workingDirectory
        logFile := old.logFile
        sessionId := old.sessionId
        cpuPercent := 0
        memoryMb := 0
        uptime := old.uptime
        command := "(stopped)"
        parentPid := none
        parentAgentPid := none
        depth := 0
        teamId := none : AgentProcess }) ∈
      (refreshProcesses meta procs fsExists).1 := by
  unfold refreshProcesses
  have h1 : (path, old) ∈ (procs.foldl (refreshStep fsExists) (meta, [])).1 :=
    refresh_loop_preserves fsExists procs (meta, []) hmem hinactive
  refine List.mem_map.mpr ⟨(path, old), h1, ?_⟩
  rw [if_neg hinactive]
  rfl

/-- Witness for C8's amended theorem at the concrete tracked agent. -/
theorem refreshStopped_spec_witness :
    ("/l",
      { pid := 10
        agentType := "claude-code"
        workingDirectory := "/w"
        logFile := some "/l"
        sessionId := some "s"
        cpuPercent := 0
        memoryMb := 0
        uptime := "01:02"
        command := "(stopped)"
        parentPid := none
        parentAgentPid := none
        depth := 0
        teamId := none : AgentProcess }) ∈
      (refreshProcesses [("/l", oldDemo)] [] (fun _ => true)).1 :=
  refreshStopped_spec [("/l", oldDemo)] [] (fun _ => true) "/l" oldDemo
    (List.mem_singleton.mpr rfl) (by simp [activeLogPaths])

/-! ## Theorems for C1 -/

/-- A successful pid lookup returns a member with the requested pid. -/
theorem lookupPid_mem_pid {agents : List AgentProcess} {p : ℕ} {x : AgentProcess}
    (h : lookupPid agents p = some x) : x ∈ agents ∧ x.pid = p := by
  unfold lookupPid at h
  refine ⟨List.mem_reverse.mp (List.mem_of_find?_eq_some h), ?_⟩
  have h2 := List.find?_some h
  simpa using h2

/-- With distinct pids, the pid determines the agent. -/
theorem pid_inj {agents : List AgentProcess}
    (hnd : (agents.map (fun a => a.pid)).Nodup) {x y : AgentProcess}
    (hx : x ∈ agents) (hy : y ∈ agents) (hpid : x.pid = y.pid) : x = y :=
  List.inj_on_of_nodup_map hnd hx hy hpid

/-- With distinct pids, looking up a member's pid finds that member. -/
theorem lookupPid_eq {agents : List AgentProcess}
    (hnd : (agents.map (fun a => a.pid)).Nodup) {b : AgentProcess}
    (hb : b ∈ agents) : lookupPid agents b.pid = some b := by
  have hsome : ((agents.reverse).find? (fun a => a.pid == b.pid)).isSome := by
    rw [List.find?_isSome]
    exact ⟨b, List.mem_reverse.mpr hb, by simp⟩
  obtain ⟨x, hx⟩ := Option.isSome_iff_exists.mp hsome
  obtain ⟨hxm, hxp⟩ := lookupPid_mem_pid (show lookupPid agents b.pid = some x from hx)
  show agents.reverse.find? (fun a => a.pid == b.pid) = some b
  rw [hx, pid_inj hnd hxm hb hxp]

/-- In a duplicate-free list an element sits at one index only. -/
theorem nodup_getElem?_inj {α : Type} {l : List α} (h : l.Nodup) {i j : ℕ}
    {x : α} (hi : l[i]? = some x) (hj : l[j]? = some x) : i = j := by
  have hi' : i < l.length := by
    by_contra hc
    rw [List.getElem?_eq_none (by omega)] at hi
    exact absurd hi (by simp)
  have hj' : j < l.length := by
    by_contra hc
    rw [List.getElem?_eq_none (by omega)] at hj
    exact absurd hj (by simp)
  have h1 : l[i] = x := by
    have := List.getElem?_eq_getElem hi'
    rw [this] at hi
    exact Option.some.inj hi
  have h2 : l[j] = x := by
    have := List.getElem?_eq_getElem hj'
    rw [this] at hj
    exact Option.some.inj hj
  exact h.getElem_inj_iff.mp (h1.trans h2.symm)

/-- `childStep` either leaves the state alone or resolves the agent at `i`
against its already-resolved parent. -/
theorem childStep_cases (st : List AgentProcess × List ℕ) (i : ℕ) :
    childStep st i = st ∨
    ∃ a par, st.1[i]? = some a ∧ a.pid ∉ st.2 ∧
      a.parentAgentPid = some par.pid ∧ par ∈ st.1 ∧ par.pid ∈ st.2 ∧
      childStep st i = (st.1.set i { a with depth := par.depth + 1 }, a.pid :: st.2) := by
  cases h1 : st.1[i]? with
  | none =>
    left
    unfold childStep
    rw [h1]
  | some a =>
    by_cases h2 : a.pid ∈ st.2
    · left
      unfold childStep
      rw [h1]
      simp [h2]
    · cases h3 : a.parentAgentPid with
      | none =>
        left
        unfold childStep
        rw [h1]
        simp [h2, h3]
      | some pp =>
        cases h4 : lookupPid st.1 pp with
        | none =>
          left
          unfold childStep
          rw [h1]
          simp [h2, h3, h4]
        | some par =>
          by_cases h5 : par.pid ∈ st.2
          · right
            obtain ⟨hparm, hparp⟩ := lookupPid_mem_pid h4
            refine ⟨a, par, rfl, h2, by rw [h3, hparp], hparm, h5, ?_⟩
            unfold childStep
            rw [h1]
            simp [h2, h3, h4, h5]
          · left
            unfold childStep
            rw [h1]
            simp [h2, h3, h4, h5]

/-- `childStep` keeps every position's pid and parent pointer. -/
theorem childStep_pp (st : List AgentProcess × List ℕ) (i j : ℕ) :
    ((childStep st i).1[j]?).map (fun a => (a.pid, a.parentAgentPid)) =
      (st.1[j]?).map (fun a => (a.pid, a.parentAgentPid)) := by
  rcases childStep_cases st i with heq | ⟨a, par, h1, _, _, _, _, heq⟩
  · rw [heq]
  · rw [heq]
    by_cases hij : i = j
    · subst hij
      have hlen : i < st.1.length := by
        by_contra hc
        rw [List.getElem?_eq_none (by omega)] at h1
        exact absurd h1 (by simp)
      rw [List.getElem?_set_self hlen, h1]
      simp
    · rw [List.getElem?_set_ne hij]

/-- `childStep` only grows the resolved set. -/
theorem childStep_resolved_sub (st : List AgentProcess × List ℕ) (i : ℕ) :
    st.2 ⊆ (childStep st i).2 := by
  rcases childStep_cases st i with heq | ⟨a, par, _, _, _, _, _, heq⟩
  · rw [heq]
    exact fun x hx => hx
  · rw [heq]
    exact fun x hx => List.mem_cons_of_mem _ hx

/-- `childStep` preserves the state invariant (given distinct pids). -/
theorem childStep_StInv {st : List AgentProcess × List ℕ} {i : ℕ}
    (hnd : (st.1.map (fun a => a.pid)).Nodup) (h : StInv st) :
    StInv (childStep st i) := by
  rcases childStep_cases st i with heq | ⟨a, par, h1, h2, h3, hparm, h5, heq⟩
  · rw [heq]
    exact h
  · rw [heq]
    have hndl : st.1.Nodup := hnd.of_map _
    have ham : a ∈ st.1 := List.getElem?_mem h1
    intro b hb hbres
    obtain ⟨j, hj⟩ := List.mem_iff_getElem?.mp hb
    have hlen : i < st.1.length := by
      by_contra hc
      rw [List.getElem?_eq_none (by omega)] at h1
      exact absurd h1 (by simp)
    by_cases hij : i = j
    · subst hij
      rw [List.getElem?_set_self hlen] at hj
      obtain rfl : { a with depth := par.depth + 1 } = b := by
        simpa using hj
      right
      refine ⟨par, ?_, by simpa using h3, List.mem_cons_of_mem _ h5, rfl⟩
      obtain ⟨k, hk⟩ := List.mem_iff_getElem?.mp hparm
      have hki : i ≠ k := by
        intro hEq
        subst hEq
        rw [h1] at hk
        obtain rfl : a = par := by simpa using hk
        exact h2 h5
      have : (st.1.set i { a with depth := par.depth + 1 })[k]? = some par := by
        rw [List.getElem?_set_ne hki]
        exact hk
      exact List.getElem?_mem this
    · rw [List.getElem?_set_ne hij] at hj
      have hbm : b ∈ st.1 := List.getElem?_mem hj
      rcases List.mem_cons.mp hbres with hba | hbold
      · obtain rfl : b = a := pid_inj hnd hbm ham hba
        exact absurd (nodup_getElem?_inj hndl hj h1) (Ne.symm hij)
      · rcases h b hbm hbold with hroot | ⟨par', hpm, hbp, hpres, hdep⟩
        · exact Or.inl hroot
        · right
          refine ⟨par', ?_, hbp, List.mem_cons_of_mem _ hpres, hdep⟩
          obtain ⟨k, hk⟩ := List.mem_iff_getElem?.mp hpm
          have hki : i ≠ k := by
            intro hEq
            subst hEq
            rw [h1] at hk
            obtain rfl : a = par' := by simpa using hk
            exact h2 hpres
          have : (st.1.set i { a with depth := par.depth + 1 })[k]? = some par' := by
            rw [List.getElem?_set_ne hki]
            exact hk
          exact List.getElem?_mem this

/-- Phase 1 keeps every position's pid and parent pointer. -/
theorem rootsPass_pp (agents : List AgentProcess) (j : ℕ) :
    ((rootsPass agents).1[j]?).map (fun a => (a.pid, a.parentAgentPid)) =
      (agents[j]?).map (fun a => (a.pid, a.parentAgentPid)) := by
  show ((agents.map _)[j]?).map _ = _
  rw [List.getElem?_map]
  cases agents[j]? with
  | none => rfl
  | some a =>
    by_cases hp : a.parentAgentPid = none <;> simp [hp]

/-- The pid column of a state agreeing positionally with `agents` is the
pid column of `agents`. -/
theorem ppview_map_pid {agents : List AgentProcess}
    {l : List AgentProcess}
    (h : ∀ j : ℕ, (l[j]?).map (fun a => (a.pid, a.parentAgentPid)) =
      (agents[j]?).map (fun a => (a.pid, a.parentAgentPid))) :
    l.map (fun a => a.pid) = agents.map (fun a => a.pid) := by
  apply List.ext_getElem?
  intro j
  have hj := h j
  rw [List.getElem?_map, List.getElem?_map]
  cases hl : l[j]? with
  | none =>
    rw [hl] at hj
    cases ha : agents[j]? with
    | none => rfl
    | some a => rw [ha] at hj; exact absurd hj (by simp)
  | some x =>
    rw [hl] at hj
    cases ha : agents[j]? with
    | none => rw [ha] at hj; exact absurd hj (by simp)
    | some a =>
      rw [ha] at hj
      simp at hj
      simp [hj.1]

/-- Phase 1 establishes the state invariant. -/
theorem rootsPass_StInv {agents : List AgentProcess}
    (hnd : (agents.map (fun a => a.pid)).Nodup) : StInv (rootsPass agents) := by
  intro b hb hbres
  left
  obtain ⟨a, ha, rfl⟩ := List.mem_map.mp hb
  obtain ⟨r, hr, hrp⟩ := List.mem_map.mp hbres
  obtain ⟨hrm, hrroot⟩ := List.mem_filter.mp hr
  have hrroot' : r.parentAgentPid = none := by simpa using hrroot
  have hpa : (if a.parentAgentPid = none then { a with depth := 0 } else a).pid = a.pid := by
    by_cases hp : a.parentAgentPid = none <;> simp [hp]
  obtain rfl : a = r := pid_inj hnd ha hrm (hrp.trans hpa).symm
  rw [if_pos hrroot']
  exact ⟨hrroot', rfl⟩

/-- `childStep` preserves the full pass invariant. -/
theorem DInv_childStep {agents : List AgentProcess}
    (hnd : (agents.map (fun a => a.pid)).Nodup)
    {st : List AgentProcess × List ℕ} (h : DInv agents st) (i : ℕ) :
    DInv agents (childStep st i) := by
  have hndst : (st.1.map (fun a => a.pid)).Nodup := by
    rw [ppview_map_pid h.2]
    exact hnd
  refine ⟨childStep_StInv hndst h.1, fun j => ?_⟩
  rw [childStep_pp st i j]
  exact h.2 j

/-- A whole pass preserves the invariant. -/
theorem DInv_childPass {agents : List AgentProcess}
    (hnd : (agents.map (fun a => a.pid)).Nodup)
    {st : List AgentProcess × List ℕ} (h : DInv agents st) :
    DInv agents (childPass st) := by
  unfold childPass
  generalize List.range st.1.length = idxs
  induction idxs generalizing st with
  | nil => exact h
  | cons i rest ih =>
    rw [List.foldl_cons]
    exact ih (DInv_childStep hnd h i)

/-- Iterating the pass preserves the invariant. -/
theorem DInv_iterate {agents : List AgentProcess}
    (hnd : (agents.map (fun a => a.pid)).Nodup)
    {st : List AgentProcess × List ℕ} (h : DInv agents st) (n : ℕ) :
    DInv agents (childPass^[n] st) := by
  induction n generalizing st with
  | zero => exact h
  | succ n ih =>
    rw [Function.iterate_succ_apply]
    exact ih (DInv_childPass hnd h)

/-- C1: after `_compute_depths` on a snapshot with distinct pids, `depth =
0` exactly for agents with `parent_agent_pid = None`; every non-root's
parent is in the snapshot with depth one less; and any agent whose declared
parent pid is not in the snapshot is promoted to root (`parent_agent_pid =
None`, `depth = 0`) at its position. -/
theorem computeDepths_spec (agents : List AgentProcess)
    (hnd : (agents.map (fun a => a.pid)).Nodup) :
    (∀ a ∈ computeDepths agents, (a.depth = 0 ↔ a.parentAgentPid = none)) ∧
    (∀ a ∈ computeDepths agents, ∀ pp, a.parentAgentPid = some pp →
      ∃ par ∈ computeDepths agents, par.pid = pp ∧ a.depth = par.depth + 1) ∧
    (∀ (i : ℕ) (a : AgentProcess) (pp : ℕ), agents[i]? = some a →
      a.parentAgentPid = some pp → pp ∉ agents.map (fun x => x.pid) →
      ∃ a', (computeDepths agents)[i]? = some a' ∧ a'.pid = a.pid ∧
        a'.parentAgentPid = none ∧ a'.depth = 0) := by
  have hD0 : DInv agents (rootsPass agents) :=
    ⟨rootsPass_StInv hnd, rootsPass_pp agents⟩
  have hD : DInv agents (childPass^[agents.length + 1] (rootsPass agents)) :=
    DInv_iterate hnd hD0 (agents.length + 1)
  set st := childPass^[agents.length + 1] (rootsPass agents) with hst
  have hout : computeDepths agents = st.1.map (fun a =>
      if a.pid ∈ st.2 then a else { a with parentAgentPid := none, depth := 0 }) := rfl
  refine ⟨?_, ?_, ?_⟩
  · intro a ha
    rw [hout] at ha
    obtain ⟨b, hb, rfl⟩ := List.mem_map.mp ha
    by_cases hres : b.pid ∈ st.2
    · rw [if_pos hres]
      rcases hD.1 b hb hres with ⟨hpn, hd0⟩ | ⟨par, _, hbp, _, hdep⟩
      · simp [hpn, hd0]
      · rw [hbp, hdep]
        simp
    · rw [if_neg hres]
      simp
  · intro a ha pp hap
    rw [hout] at ha
    obtain ⟨b, hb, rfl⟩ := List.mem_map.mp ha
    by_cases hres : b.pid ∈ st.2
    · rw [if_pos hres] at hap ⊢
      rcases hD.1 b hb hres with ⟨hpn, _⟩ | ⟨par, hpm, hbp, hpres, hdep⟩
      · rw [hpn] at hap
        exact absurd hap (by simp)
      · have hppeq : par.pid = pp := by
          rw [hbp] at hap
          simpa using hap
        exact ⟨par, by
          rw [hout]
          exact List.mem_map.mpr ⟨par, hpm, by rw [if_pos hpres]⟩, hppeq, hdep⟩
    · rw [if_neg hres] at hap
      exact absurd hap (by simp)
  · intro i a pp hia hap hpp
    have hj := hD.2 i
    rw [hia] at hj
    cases hsti : st.1[i]? with
    | none =>
      rw [hsti] at hj
      exact absurd hj (by simp)
    | some b =>
      rw [hsti] at hj
      simp at hj
      have hbm : b ∈ st.1 := List.getElem?_mem hsti
      have hres : b.pid ∉ st.2 := by
        intro hres
        rcases hD.1 b hbm hres with ⟨hpn, _⟩ | ⟨par, hpm, hbp, _, _⟩
        · rw [hpn] at hj
          exact absurd hj.2.symm (by simp [hap])
        · have : par.pid ∈ st.1.map (fun a => a.pid) :=
            List.mem_map.mpr ⟨par, hpm, rfl⟩
          rw [ppview_map_pid hD.2] at this
          have hppeq : par.pid = pp := by
            rw [hbp] at hj
            have h2 := hj.2.symm
            rw [hap] at h2
            have h3 : pp = par.pid := by simpa using h2
            exact h3.symm
          exact hpp (hppeq ▸ this)
      refine ⟨{ b with parentAgentPid := none, depth := 0 }, ?_, ?_, rfl, rfl⟩
      · rw [hout, List.getElem?_map, hsti]
        simp [hres]
      · simpa using hj.1

/-! ## Theorems for C4 -/

/-- Membership in a children list. -/
theorem mem_childrenOf {agents : List AgentProcess} {p : Option ℕ}
    {x : AgentProcess} :
    x ∈ childrenOf agents p ↔ x ∈ agents ∧ x.parentAgentPid = p := by
  unfold childrenOf
  rw [(List.perm_insertionSort pidLE _).mem_iff, List.mem_filter]
  simp

/-- Children lists of a pid-distinct snapshot are duplicate-free. -/
theorem childrenOf_nodup {agents : List AgentProcess}
    (hnd : (agents.map (fun a => a.pid)).Nodup) (p : Option ℕ) :
    (childrenOf agents p).Nodup :=
  (List.perm_insertionSort pidLE _).nodup_iff.mpr ((hnd.of_map _).filter _)

/-- Children lists are sorted by pid. -/
theorem childrenOf_sorted (agents : List AgentProcess) (p : Option ℕ) :
    (childrenOf agents p).Pairwise pidLE :=
  List.sorted_insertionSort pidLE _

/-- Children of one parent key share a depth. -/
theorem childrenOf_depth_eq {agents : List AgentProcess}
    (hInv : ForestInv agents) {p : Option ℕ} {c₁ c₂ : AgentProcess}
    (h₁ : c₁ ∈ childrenOf agents p) (h₂ : c₂ ∈ childrenOf agents p) :
    c₁.depth = c₂.depth := by
  obtain ⟨hm₁, hp₁⟩ := mem_childrenOf.mp h₁
  obtain ⟨hm₂, hp₂⟩ := mem_childrenOf.mp h₂
  cases p with
  | none =>
    rw [(hInv.2.1 c₁ hm₁).mp hp₁, (hInv.2.1 c₂ hm₂).mp hp₂]
  | some q =>
    obtain ⟨b₁, hb₁, hbp₁, hbd₁⟩ := hInv.2.2 c₁ hm₁ q hp₁
    obtain ⟨b₂, hb₂, hbp₂, hbd₂⟩ := hInv.2.2 c₂ hm₂ q hp₂
    obtain rfl : b₁ = b₂ := pid_inj hInv.1 hb₁ hb₂ (hbp₁.trans hbp₂.symm)
    omega

/-- Agents whose parent fields agree have equal depths. -/
theorem parent_eq_depth_eq {agents : List AgentProcess}
    (hInv : ForestInv agents) {x y : AgentProcess}
    (hx : x ∈ agents) (hy : y ∈ agents)
    (h : x.parentAgentPid = y.parentAgentPid) : x.depth = y.depth := by
  cases hp : x.parentAgentPid with
  | none =>
    rw [(hInv.2.1 x hx).mp hp, (hInv.2.1 y hy).mp (h ▸ hp)]
  | some q =>
    obtain ⟨b₁, hb₁, hbp₁, hbd₁⟩ := hInv.2.2 x hx q hp
    obtain ⟨b₂, hb₂, hbp₂, hbd₂⟩ := hInv.2.2 y hy q (h ▸ hp)
    obtain rfl : b₁ = b₂ := pid_inj hInv.1 hb₁ hb₂ (hbp₁.trans hbp₂.symm)
    omega

/-- The resolved parent of a non-root under the invariant. -/
theorem parentOf_spec {agents : List AgentProcess} (hInv : ForestInv agents)
    {x : AgentProcess} (hx : x ∈ agents) {pp : ℕ}
    (hpp : x.parentAgentPid = some pp) :
    ∃ par, parentOf agents x = some par ∧ par ∈ agents ∧ par.pid = pp ∧
      x.depth = par.depth + 1 := by
  obtain ⟨b, hbm, hbp, hbd⟩ := hInv.2.2 x hx pp hpp
  refine ⟨b, ?_, hbm, hbp, hbd⟩
  unfold parentOf
  rw [hpp, ← hbp]
  show lookupPid agents b.pid = some b
  exact lookupPid_eq hInv.1 hbm

/-- Splitting an ancestor chain. -/
theorem ancA_add (agents : List AgentProcess) (m n : ℕ) (x : AgentProcess) :
    ancA agents (m + n) x = (ancA agents m x).bind (ancA agents n) := by
  induction m generalizing x with
  | zero => simp [ancA]
  | succ m ih =>
    rw [Nat.succ_add]
    cases hp : parentOf agents x with
    | none => simp [ancA, hp]
    | some y => simp [ancA, hp, ih]

/-- Walking `k` parents up subtracts `k` from the depth. -/
theorem ancA_depth {agents : List AgentProcess} (hInv : ForestInv agents) :
    ∀ (k : ℕ) (x b : AgentProcess), x ∈ agents → ancA agents k x = some b →
      b ∈ agents ∧ b.depth + k = x.depth := by
  intro k
  induction k with
  | zero =>
    intro x b hx h
    obtain rfl : x = b := by simpa [ancA] using h
    exact ⟨hx, rfl⟩
  | succ k ih =>
    intro x b hx h
    cases hp : parentOf agents x with
    | none =>
      rw [show ancA agents (k + 1) x = none by simp [ancA, hp]] at h
      exact absurd h (by simp)
    | some y =>
      have h' : ancA agents k y = some b := by
        have : ancA agents (k + 1) x = ancA agents k y := by simp [ancA, hp]
        rw [this] at h
        exact h
      cases hxp : x.parentAgentPid with
      | none =>
        unfold parentOf at hp
        rw [hxp] at hp
        exact absurd hp (by simp)
      | some pp =>
        obtain ⟨par, hpo, hpm, _, hdep⟩ := parentOf_spec hInv hx hxp
        rw [hp] at hpo
        obtain rfl : y = par := by simpa using hpo
        obtain ⟨hbm, hbd⟩ := ih y b hpm h'
        exact ⟨hbm, by omega⟩

/-- Every level up to an agent's depth is reached by the ancestor chain. -/
theorem ancA_exists {agents : List AgentProcess} (hInv : ForestInv agents) :
    ∀ (ℓ : ℕ) (x : AgentProcess), x ∈ agents → ℓ ≤ x.depth →
      ∃ b, ancA agents ℓ x = some b ∧ b ∈ agents ∧ b.depth = x.depth - ℓ := by
  intro ℓ
  induction ℓ with
  | zero =>
    intro x hx _
    exact ⟨x, by simp [ancA], hx, by omega⟩
  | succ ℓ ih =>
    intro x hx hℓ
    cases hxp : x.parentAgentPid with
    | none =>
      have := (hInv.2.1 x hx).mp hxp
      omega
    | some pp =>
      obtain ⟨par, hpo, hpm, _, hdep⟩ := parentOf_spec hInv hx hxp
      have hstep : ancA agents (ℓ + 1) x = ancA agents ℓ par := by simp [ancA, hpo]
      obtain ⟨b, hb, hbm, hbd⟩ := ih par hpm (by omega)
      exact ⟨b, hstep ▸ hb, hbm, by omega⟩

/-- Every level below an attained depth is attained by some agent. -/
theorem depths_attained {agents : List AgentProcess} (hInv : ForestInv agents) :
    ∀ a ∈ agents, ∀ ℓ, ℓ ≤ a.depth → ∃ b ∈ agents, b.depth = ℓ := by
  intro a ha ℓ hℓ
  obtain ⟨b, _, hbm, hbd⟩ := ancA_exists hInv (a.depth - ℓ) a ha (by omega)
  exact ⟨b, hbm, by omega⟩

/-- Depths are bounded by the number of agents. -/
theorem depth_lt_length {agents : List AgentProcess} (hInv : ForestInv agents) :
    ∀ a ∈ agents, a.depth < agents.length := by
  intro a ha
  have hsub : Finset.range (a.depth + 1) ⊆
      agents.toFinset.image (fun b => b.depth) := by
    intro ℓ hℓ
    rw [Finset.mem_range] at hℓ
    obtain ⟨b, hbm, hbd⟩ := depths_attained hInv a ha ℓ (by omega)
    rw [Finset.mem_image]
    exact ⟨b, List.mem_toFinset.mpr hbm, hbd⟩
  have h1 := Finset.card_le_card hsub
  rw [Finset.card_range] at h1
  have h2 := Finset.card_image_le (s := agents.toFinset) (f := fun b => b.depth)
  have h3 := agents.toFinset_card_le
  omega

/-- Membership in the preorder walk: exactly the agents whose ancestor
chain reaches an agent carrying the walk's parent key, within the fuel. -/
theorem mem_walkTree {agents : List AgentProcess}
    (hnd : (agents.map (fun a => a.pid)).Nodup) :
    ∀ (fuel : ℕ) (p : Option ℕ) (x : AgentProcess),
      x ∈ walkTree agents fuel p ↔
        x ∈ agents ∧ ∃ k b, k < fuel ∧ ancA agents k x = some b ∧
          b.parentAgentPid = p := by
  intro fuel
  induction fuel with
  | zero =>
    intro p x
    simp [walkTree]
  | succ f ih =>
    intro p x
    rw [show walkTree agents (f + 1) p =
      (childrenOf agents p).flatMap
        (fun a => a :: walkTree agents f (some a.pid)) from rfl]
    rw [List.mem_flatMap]
    constructor
    · rintro ⟨c, hc, hx⟩
      obtain ⟨hcm, hcp⟩ := mem_childrenOf.mp hc
      rcases List.mem_cons.mp hx with rfl | hxs
      · exact ⟨hcm, 0, x, Nat.succ_pos _, by simp [ancA], hcp⟩
      · obtain ⟨hxm, k, b, hk, hanc, hbp⟩ := (ih (some c.pid) x).mp hxs
        refine ⟨hxm, k + 1, c, by omega, ?_, hcp⟩
        rw [ancA_add agents k 1, hanc]
        show ancA agents 1 b = some c
        have : lookupPid agents c.pid = some c := lookupPid_eq hnd hcm
        simp [ancA, parentOf, hbp, this]
    · rintro ⟨hxm, k, b, hk, hanc, hbp⟩
      match k with
      | 0 =>
        obtain rfl : x = b := by simpa [ancA] using hanc
        exact ⟨x, mem_childrenOf.mpr ⟨hxm, hbp⟩, List.mem_cons_self x _⟩
      | k + 1 =>
        rw [ancA_add agents k 1] at hanc
        cases hmid : ancA agents k x with
        | none =>
          rw [hmid] at hanc
          exact absurd hanc (by simp)
        | some b₀ =>
          rw [hmid] at hanc
          have hanc1 : ancA agents 1 b₀ = some b := by simpa using hanc
          have hpo : parentOf agents b₀ = some b := by
            cases hq : parentOf agents b₀ with
            | none => rw [show ancA agents 1 b₀ = none by simp [ancA, hq]] at hanc1; exact absurd hanc1 (by simp)
            | some y =>
              have : ancA agents 1 b₀ = some y := by simp [ancA, hq]
              rw [this] at hanc1
              exact hanc1
          have hb0p : b₀.parentAgentPid = some b.pid ∧ b ∈ agents := by
            cases hq : b₀.parentAgentPid with
            | none =>
              rw [show parentOf agents b₀ = none by simp [parentOf, hq]] at hpo
              exact absurd hpo (by simp)
            | some pp =>
              have hpo' : lookupPid agents pp = some b := by
                rw [show parentOf agents b₀ = lookupPid agents pp by
                  simp [parentOf, hq]] at hpo
                exact hpo
              obtain ⟨hm, hp⟩ := lookupPid_mem_pid hpo'
              exact ⟨by rw [hp], hm⟩
          refine ⟨b, mem_childrenOf.mpr ⟨hb0p.2, hbp⟩, List.mem_cons_of_mem _ ?_⟩
          exact (ih (some b.pid) x).mpr ⟨hxm, k, b₀, by omega, hmid, hb0p.1⟩

/-- Under the forest invariant the preorder walk visits every agent. -/
theorem mem_buildAgentTree {agents : List AgentProcess}
    (hInv : ForestInv agents) (x : AgentProcess) :
    x ∈ buildAgentTree agents ↔ x ∈ agents := by
  unfold buildAgentTree
  rw [mem_walkTree hInv.1]
  constructor
  · exact fun h => h.1
  · intro hx
    obtain ⟨b, hb, hbm, hbd⟩ := ancA_exists hInv x.depth x hx (le_refl _)
    refine ⟨hx, x.depth, b, ?_, hb, (hInv.2.1 b hbm).mpr (by omega)⟩
    have := depth_lt_length hInv x hx
    omega

/-- Every element of a child's branch chains up to that child. -/
theorem mem_branch {agents : List AgentProcess}
    (hnd : (agents.map (fun a => a.pid)).Nodup) {f : ℕ} {c x : AgentProcess}
    (hcm : c ∈ agents)
    (h : x ∈ c :: walkTree agents f (some c.pid)) :
    x ∈ agents ∧ ∃ m, ancA agents m x = some c := by
  rcases List.mem_cons.mp h with rfl | hxs
  · exact ⟨hcm, 0, by simp [ancA]⟩
  · obtain ⟨hxm, k, b, _, hanc, hbp⟩ := (mem_walkTree hnd f (some c.pid) x).mp hxs
    refine ⟨hxm, k + 1, ?_⟩
    rw [ancA_add agents k 1, hanc]
    show ancA agents 1 b = some c
    have : lookupPid agents c.pid = some c := lookupPid_eq hnd hcm
    simp [ancA, parentOf, hbp, this]

/-- The preorder walk never repeats an agent. -/
theorem walkTree_nodup {agents : List AgentProcess}
    (hInv : ForestInv agents) :
    ∀ (fuel : ℕ) (p : Option ℕ), (walkTree agents fuel p).Nodup := by
  intro fuel
  induction fuel with
  | zero => intro p; simp [walkTree]
  | succ f ih =>
    intro p
    rw [show walkTree agents (f + 1) p =
      (childrenOf agents p).flatMap
        (fun a => a :: walkTree agents f (some a.pid)) from rfl]
    refine List.nodup_flatMap.mpr ⟨?_, ?_⟩
    · intro c hc
      obtain ⟨hcm, _⟩ := mem_childrenOf.mp hc
      refine List.nodup_cons.mpr ⟨?_, ih (some c.pid)⟩
      intro hcs
      obtain ⟨_, k, b, _, hanc, hbp⟩ := (mem_walkTree hInv.1 f (some c.pid) c).mp hcs
      have hanc' : ancA agents (k + 1) c = some c := by
        rw [ancA_add agents k 1, hanc]
        show ancA agents 1 b = some c
        have : lookupPid agents c.pid = some c := lookupPid_eq hInv.1 hcm
        simp [ancA, parentOf, hbp, this]
      obtain ⟨-, habs⟩ := ancA_depth hInv (k + 1) c c hcm hanc'
      omega
    · refine List.Pairwise.imp_of_mem ?_ (childrenOf_nodup hInv.1 p)
      intro c₁ c₂ hc₁ hc₂ hne x hx₁ hx₂
      obtain ⟨hxm, m₁, hm₁⟩ := mem_branch hInv.1 (mem_childrenOf.mp hc₁).1 hx₁
      obtain ⟨-, m₂, hm₂⟩ := mem_branch hInv.1 (mem_childrenOf.mp hc₂).1 hx₂
      obtain ⟨hc₁m, -⟩ := ancA_depth hInv m₁ x c₁ hxm hm₁
      obtain ⟨hc₂m, -⟩ := ancA_depth hInv m₂ x c₂ hxm hm₂
      have hdeq : c₁.depth = c₂.depth := childrenOf_depth_eq hInv hc₁ hc₂
      have hm : m₁ = m₂ := by
        obtain ⟨-, hd₁⟩ := ancA_depth hInv m₁ x c₁ hxm hm₁
        obtain ⟨-, hd₂⟩ := ancA_depth hInv m₂ x c₂ hxm hm₂
        omega
      rw [hm, hm₂] at hm₁
      exact hne (Option.some.inj hm₁).symm

/-- A strict ancestor lies strictly higher in the forest. -/
theorem transGen_depth {agents : List AgentProcess} (hInv : ForestInv agents)
    {x y : AgentProcess} (h : Relation.TransGen (plink agents) x y)
    (hx : x ∈ agents) : y ∈ agents ∧ y.depth < x.depth := by
  induction h with
  | single h1 =>
    obtain ⟨hp, hym⟩ := h1
    obtain ⟨b, hbm, hbp, hbd⟩ := hInv.2.2 x hx _ hp
    obtain rfl : b = _ := pid_inj hInv.1 hbm hym hbp
    exact ⟨hym, by omega⟩
  | tail h1 h2 ih =>
    obtain ⟨hym, hdy⟩ := ih
    obtain ⟨hp, hcm⟩ := h2
    obtain ⟨b, hbm, hbp, hbd⟩ := hInv.2.2 _ hym _ hp
    obtain rfl : b = _ := pid_inj hInv.1 hbm hcm hbp
    exact ⟨hcm, by omega⟩

/-- A strict ancestor is reached by a positive number of chain steps. -/
theorem transGen_ancA {agents : List AgentProcess} (hInv : ForestInv agents)
    {x y : AgentProcess} (h : Relation.TransGen (plink agents) x y) :
    ∃ t, 1 ≤ t ∧ ancA agents t x = some y := by
  induction h with
  | single h1 =>
    obtain ⟨hp, hym⟩ := h1
    refine ⟨1, le_refl _, ?_⟩
    have : lookupPid agents _ = some _ := lookupPid_eq hInv.1 hym
    simp [ancA, parentOf, hp, this]
  | tail h1 h2 ih =>
    obtain ⟨t, ht, hanc⟩ := ih
    obtain ⟨hp, hcm⟩ := h2
    refine ⟨t + 1, by omega, ?_⟩
    rw [ancA_add agents t 1, hanc]
    have : lookupPid agents _ = some _ := lookupPid_eq hInv.1 hcm
    simp [ancA, parentOf, hp, this]

/-- In the preorder walk no agent precedes one of its strict ancestors. -/
theorem walkTree_anc_before {agents : List AgentProcess}
    (hInv : ForestInv agents) :
    ∀ (fuel : ℕ) (p : Option ℕ),
      (walkTree agents fuel p).Pairwise
        (fun x y => ¬ Relation.TransGen (plink agents) x y) := by
  intro fuel
  induction fuel with
  | zero => intro p; simp [walkTree]
  | succ f ih =>
    intro p
    rw [show walkTree agents (f + 1) p =
      (childrenOf agents p).flatMap
        (fun a => a :: walkTree agents f (some a.pid)) from rfl]
    refine List.pairwise_flatMap.mpr ⟨?_, ?_⟩
    · intro c hc
      obtain ⟨hcm, -⟩ := mem_childrenOf.mp hc
      refine List.pairwise_cons.mpr ⟨?_, ih (some c.pid)⟩
      intro y hy htg
      obtain ⟨hym, hdy⟩ := transGen_depth hInv htg hcm
      obtain ⟨-, k, b, -, hanc, hbp⟩ := (mem_walkTree hInv.1 f (some c.pid) y).mp hy
      have hanc' : ancA agents (k + 1) y = some c := by
        rw [ancA_add agents k 1, hanc]
        show ancA agents 1 b = some c
        have : lookupPid agents c.pid = some c := lookupPid_eq hInv.1 hcm
        simp [ancA, parentOf, hbp, this]
      obtain ⟨-, hd⟩ := ancA_depth hInv (k + 1) y c hym hanc'
      omega
    · refine List.Pairwise.imp_of_mem ?_ (childrenOf_nodup hInv.1 p)
      intro c₁ c₂ hc₁ hc₂ hne x hx y hy htg
      obtain ⟨hxm, m₁, hm₁⟩ := mem_branch hInv.1 (mem_childrenOf.mp hc₁).1 hx
      obtain ⟨hym, m₂, hm₂⟩ := mem_branch hInv.1 (mem_childrenOf.mp hc₂).1 hy
      obtain ⟨t, ht, hanc⟩ := transGen_ancA hInv htg
      have hcomp : ancA agents (t + m₂) x = some c₂ := by
        rw [ancA_add agents t m₂, hanc]
        exact hm₂
      have hdeq : c₁.depth = c₂.depth := childrenOf_depth_eq hInv hc₁ hc₂
      obtain ⟨-, hd₁⟩ := ancA_depth hInv m₁ x c₁ hxm hm₁
      obtain ⟨-, hd₂⟩ := ancA_depth hInv (t + m₂) x c₂ hxm hcomp
      have hmm : m₁ = t + m₂ := by omega
      rw [hmm, hcomp] at hm₁
      exact hne (Option.some.inj hm₁).symm

/-- In the preorder walk, agents sharing a parent pointer appear in
ascending pid order. -/
theorem walkTree_sibling {agents : List AgentProcess}
    (hInv : ForestInv agents) :
    ∀ (fuel : ℕ) (p : Option ℕ),
      (walkTree agents fuel p).Pairwise
        (fun x y => x.parentAgentPid = y.parentAgentPid → x.pid < y.pid) := by
  intro fuel
  induction fuel with
  | zero => intro p; simp [walkTree]
  | succ f ih =>
    intro p
    rw [show walkTree agents (f + 1) p =
      (childrenOf agents p).flatMap
        (fun a => a :: walkTree agents f (some a.pid)) from rfl]
    refine List.pairwise_flatMap.mpr ⟨?_, ?_⟩
    · intro c hc
      obtain ⟨hcm, -⟩ := mem_childrenOf.mp hc
      refine List.pairwise_cons.mpr ⟨?_, ih (some c.pid)⟩
      intro y hy hpar
      obtain ⟨hym, m, hm⟩ := mem_branch hInv.1 hcm (List.mem_cons_of_mem _ hy)
      obtain ⟨-, k, b, -, hanc, hbp⟩ := (mem_walkTree hInv.1 f (some c.pid) y).mp hy
      have hanc' : ancA agents (k + 1) y = some c := by
        rw [ancA_add agents k 1, hanc]
        show ancA agents 1 b = some c
        have : lookupPid agents c.pid = some c := lookupPid_eq hInv.1 hcm
        simp [ancA, parentOf, hbp, this]
      obtain ⟨-, hd⟩ := ancA_depth hInv (k + 1) y c hym hanc'
      have := parent_eq_depth_eq hInv hcm hym hpar
      omega
    · have hsorted := (childrenOf_sorted agents p).and (childrenOf_nodup hInv.1 p)
      refine List.Pairwise.imp_of_mem ?_ hsorted
      intro c₁ c₂ hc₁ hc₂ hle x hx y hy hpar
      obtain ⟨hxm, m₁, hm₁⟩ := mem_branch hInv.1 (mem_childrenOf.mp hc₁).1 hx
      obtain ⟨hym, m₂, hm₂⟩ := mem_branch hInv.1 (mem_childrenOf.mp hc₂).1 hy
      have hdeq : c₁.depth = c₂.depth := childrenOf_depth_eq hInv hc₁ hc₂
      obtain ⟨-, hd₁⟩ := ancA_depth hInv m₁ x c₁ hxm hm₁
      obtain ⟨-, hd₂⟩ := ancA_depth hInv m₂ y c₂ hym hm₂
      have hxyd : x.depth = y.depth := parent_eq_depth_eq hInv hxm hym hpar
      have hmm : m₁ = m₂ := by omega
      subst hmm
      match m₁, hm₁, hm₂ with
      | 0, hm₁, hm₂ =>
        obtain rfl : x = c₁ := by simpa [ancA] using hm₁
        obtain rfl : y = c₂ := by simpa [ancA] using hm₂
        have hpne : x.pid ≠ y.pid := fun hEq =>
          hle.2 (pid_inj hInv.1 hxm hym hEq)
        exact lt_of_le_of_ne hle.1 hpne
      | m + 1, hm₁, hm₂ =>
        exfalso
        cases hq : x.parentAgentPid with
        | none =>
          have h0 : ancA agents (m + 1) x = none := by
            simp [ancA, parentOf, hq]
          rw [h0] at hm₁
          exact absurd hm₁ (by simp)
        | some pp =>
          have hyq : y.parentAgentPid = some pp := by rw [← hpar, hq]
          obtain ⟨w, hw, -, -, -⟩ := parentOf_spec hInv hxm hq
          have hw' : parentOf agents y = some w := by
            unfold parentOf at hw ⊢
            rw [hq] at hw
            rw [hyq]
            exact hw
          have e₁ : ancA agents m w = some c₁ := by
            have : ancA agents (m + 1) x = ancA agents m w := by
              simp [ancA, hw]
            rw [this] at hm₁
            exact hm₁
          have e₂ : ancA agents m w = some c₂ := by
            have : ancA agents (m + 1) y = ancA agents m w := by
              simp [ancA, hw']
            rw [this] at hm₂
            exact hm₂
          rw [e₁] at e₂
          have : c₁ = c₂ := Option.some.inj e₂
          exact absurd (pid_inj hInv.1 (mem_childrenOf.mp hc₁).1
            (mem_childrenOf.mp hc₂).1 (by rw [this])) (fun hEq => hle.2 hEq)

/-- C4: on a snapshot whose parent links are resolved (the forest
invariant), `build_agent_tree` returns a valid preorder: a permutation of
the input in which no agent precedes one of its strict ancestors (so every
parent's index precedes all of its descendants' indices) and agents with
equal parent pointers (siblings) appear in ascending pid order. -/
theorem buildAgentTree_spec (agents : List AgentProcess)
    (hInv : ForestInv agents) :
    (buildAgentTree agents).Perm agents ∧
    (buildAgentTree agents).Pairwise
      (fun x y => ¬ Relation.TransGen (plink agents) x y) ∧
    (buildAgentTree agents).Pairwise
      (fun x y => x.parentAgentPid = y.parentAgentPid → x.pid < y.pid) := by
  refine ⟨?_, walkTree_anc_before hInv _ _, walkTree_sibling hInv _ _⟩
  refine (List.perm_ext_iff_of_nodup (walkTree_nodup hInv _ _)
    (hInv.1.of_map _)).mpr ?_
  intro a
  exact mem_buildAgentTree hInv a

/-- Witness for C4's theorem: the demo forest satisfies the invariant and
its preorder is root 1, then 2, then 3 with its child 4. -/
theorem buildAgentTree_spec_witness :
    (buildAgentTree demoForest).map (fun a => a.pid) = [1, 2, 3, 4] := by
  have h := buildAgentTree_spec demoForest (by decide)
  decide

/-! ## Theorems for C3 -/

/-- Climbing from a root stays put. -/
theorem climb_of_root {agents : List AgentProcess} {r : AgentProcess}
    (hr : r.parentAgentPid = none) (fuel : ℕ) : climb agents fuel r = r := by
  cases fuel with
  | zero => rfl
  | succ f => simp [climb, hr]

/-- The team walk reaches a root of the parent forest within `depth`
steps. -/
theorem climb_root {agents : List AgentProcess} (hInv : ForestInv agents) :
    ∀ (d : ℕ) (a : AgentProcess), a ∈ agents → a.depth = d →
      ∀ fuel, d ≤ fuel →
      ∃ r, climb agents fuel a = r ∧ r ∈ agents ∧ r.parentAgentPid = none ∧
        Relation.ReflTransGen (plink agents) a r := by
  intro d
  induction d with
  | zero =>
    intro a ha h0 fuel _
    have hp : a.parentAgentPid = none := (hInv.2.1 a ha).mpr h0
    exact ⟨a, climb_of_root hp fuel, ha, hp, Relation.ReflTransGen.refl⟩
  | succ d ih =>
    intro a ha hd fuel hfuel
    cases hq : a.parentAgentPid with
    | none =>
      have := (hInv.2.1 a ha).mp hq
      omega
    | some pp =>
      obtain ⟨par, hpo, hpm, hppid, hdep⟩ := parentOf_spec hInv ha hq
      match fuel, hfuel with
      | f + 1, _ =>
        have hlook : lookupPid agents pp = some par := by
          unfold parentOf at hpo
          rw [hq] at hpo
          exact hpo
        have hstep : climb agents (f + 1) a = climb agents f par := by
          simp [climb, hq, hlook]
        obtain ⟨r, hr, hrm, hrp, hrtg⟩ := ih par hpm (by omega) f (by omega)
        exact ⟨r, hstep ▸ hr, hrm, hrp,
          Relation.ReflTransGen.head ⟨by rw [hq, hppid], hpm⟩ hrtg⟩

/-- Parent links are deterministic, so each agent reaches at most one
root. -/
theorem root_unique {agents : List AgentProcess} (hInv : ForestInv agents)
    {a r₁ r₂ : AgentProcess}
    (h1 : Relation.ReflTransGen (plink agents) a r₁)
    (hr1 : r₁.parentAgentPid = none)
    (h2 : Relation.ReflTransGen (plink agents) a r₂)
    (hr2 : r₂.parentAgentPid = none) : r₁ = r₂ := by
  induction h1 using Relation.ReflTransGen.head_induction_on with
  | refl =>
    rcases Relation.ReflTransGen.cases_head h2 with rfl | ⟨b, hb, -⟩
    · rfl
    · have hcontra := hb.1
      rw [hr1] at hcontra
      exact absurd hcontra (by simp)
  | head hab hbr ih =>
    rename_i x c
    rcases Relation.ReflTransGen.cases_head h2 with rfl | ⟨b', hb', hb'r⟩
    · have hcontra := hab.1
      rw [hr2] at hcontra
      exact absurd hcontra (by simp)
    · obtain rfl : c = b' := by
        have := hab.1.symm.trans hb'.1
        exact pid_inj hInv.1 hab.2 hb'.2 (by simpa using this)
      exact ih hb'r

/-- The team id of each agent is the pid of its unique reachable root;
roots take their own pid. -/
theorem teamOf_spec {agents : List AgentProcess} (hInv : ForestInv agents) :
    ∀ a ∈ agents,
      ∃ r, Relation.ReflTransGen (plink agents) a r ∧
        r.parentAgentPid = none ∧ r ∈ agents ∧
        teamOf agents a = some r.pid ∧
        (a.parentAgentPid = none → r = a) ∧
        (∀ r', Relation.ReflTransGen (plink agents) a r' →
          r'.parentAgentPid = none → r' = r) := by
  intro a ha
  by_cases h0 : a.depth = 0
  · have hp : a.parentAgentPid = none := (hInv.2.1 a ha).mpr h0
    refine ⟨a, Relation.ReflTransGen.refl, hp, ha, ?_, fun _ => rfl, ?_⟩
    · unfold teamOf
      rw [if_pos h0]
    · intro r' hr' hr'p
      exact root_unique hInv hr' hr'p Relation.ReflTransGen.refl hp
  · obtain ⟨r, hr, hrm, hrp, hrtg⟩ := climb_root hInv a.depth a ha rfl
      agents.length (le_of_lt (depth_lt_length hInv a ha))
    refine ⟨r, hrtg, hrp, hrm, ?_, ?_, ?_⟩
    · unfold teamOf
      rw [if_neg h0, hr]
    · intro hp
      exact absurd ((hInv.2.1 a ha).mp hp) h0
    · intro r' hr' hr'p
      exact root_unique hInv hr' hr'p hrtg hrp

/-- The assigned copy of an agent (pid, parent and depth unchanged,
`team_id` set). -/
theorem assign_mem {agents : List AgentProcess} {x : AgentProcess} :
    x ∈ assignTeamIds agents ↔
      ∃ a ∈ agents, x = { a with teamId := teamOf agents a } := by
  unfold assignTeamIds
  rw [List.mem_map]
  constructor
  · rintro ⟨a, ha, rfl⟩
    exact ⟨a, ha, rfl⟩
  · rintro ⟨a, ha, rfl⟩
    exact ⟨a, ha, rfl⟩

/-- The pid column survives team assignment. -/
theorem assign_map_pid (agents : List AgentProcess) :
    (assignTeamIds agents).map (fun a => a.pid) = agents.map (fun a => a.pid) := by
  unfold assignTeamIds
  rw [List.map_map]
  rfl

/-- The team key of an assigned agent is the pid of its root. -/
theorem teamKey_assign {agents : List AgentProcess} (hInv : ForestInv agents)
    {a : AgentProcess} (ha : a ∈ agents) :
    ∃ r, Relation.ReflTransGen (plink agents) a r ∧ r.parentAgentPid = none ∧
      r ∈ agents ∧ teamKey { a with teamId := teamOf agents a } = r.pid := by
  obtain ⟨r, hrtg, hrp, hrm, hteam, -, -⟩ := teamOf_spec hInv a ha
  refine ⟨r, hrtg, hrp, hrm, ?_⟩
  unfold teamKey
  rw [hteam]
  rfl

/-- Each member of a team group satisfies the forest invariant again, so
the preorder machinery applies within a team. -/
theorem teamFilter_inv {agents : List AgentProcess} (hInv : ForestInv agents)
    (tid : ℕ) :
    ForestInv ((assignTeamIds agents).filter (fun x => teamKey x == tid)) := by
  refine ⟨?_, ?_, ?_⟩
  · have hsub : List.Sublist
        (((assignTeamIds agents).filter
          (fun x => teamKey x == tid)).map (fun a => a.pid))
        ((assignTeamIds agents).map (fun a => a.pid)) :=
      (List.filter_sublist (assignTeamIds agents)).map (fun a => a.pid)
    rw [assign_map_pid] at hsub
    exact hInv.1.sublist hsub
  · intro x hx
    obtain ⟨a, ha, rfl⟩ := assign_mem.mp (List.mem_filter.mp hx).1
    exact hInv.2.1 a ha
  · intro x hx pp hpp
    obtain ⟨hxassign, hxkey⟩ := List.mem_filter.mp hx
    obtain ⟨a, ha, rfl⟩ := assign_mem.mp hxassign
    obtain ⟨par, hpm, hppid, hdep⟩ := hInv.2.2 a ha pp hpp
    refine ⟨{ par with teamId := teamOf agents par }, ?_, hppid, hdep⟩
    rw [List.mem_filter]
    refine ⟨assign_mem.mpr ⟨par, hpm, rfl⟩, ?_⟩
    obtain ⟨r, hrtg, hrp, hrm, hkey⟩ := teamKey_assign hInv ha
    obtain ⟨r', hrtg', hrp', hrm', hkey'⟩ := teamKey_assign hInv hpm
    obtain ⟨-, -, -, -, -, huniq⟩ := teamOf_spec hInv a ha
    have hlink : plink agents a par := ⟨by rw [hpp, hppid], hpm⟩
    have hreach : Relation.ReflTransGen (plink agents) a r' :=
      Relation.ReflTransGen.head hlink hrtg'
    have hr'r : r' = r := by
      obtain ⟨r₀, hrtg₀, hrp₀, hrm₀, hteam₀, -, huniq₀⟩ := teamOf_spec hInv a ha
      have h1 := huniq₀ r' hreach hrp'
      have h2 := huniq₀ r hrtg hrp
      rw [h1, h2]
    have : teamKey { a with teamId := teamOf agents a } = tid := by
      simpa using hxkey
    rw [hkey', hr'r, ← hkey]
    simp [this]

/-- C3: after team assignment every root carries its own pid as team id and
every agent's team id is the pid of the unique root reached by following
`parent_agent_pid`; `build_teams` produces one team per root (its team-id
list is a permutation of the root pids), sorted by strictly ascending team
id, and each team's members are exactly the assigned agents with that team
id (in tree order, hence stated as a permutation). -/
theorem buildTeams_spec (agents : List AgentProcess) (hInv : ForestInv agents) :
    (∀ a ∈ agents,
      ∃ r, Relation.ReflTransGen (plink agents) a r ∧
        r.parentAgentPid = none ∧
        teamOf agents a = some r.pid ∧
        (a.parentAgentPid = none → teamOf agents a = some a.pid) ∧
        (∀ r', Relation.ReflTransGen (plink agents) a r' →
          r'.parentAgentPid = none → r' = r)) ∧
    ((buildTeams agents).map (fun t => t.teamId)).Perm
      ((agents.filter (fun a => a.parentAgentPid = none)).map (fun a => a.pid)) ∧
    ((buildTeams agents).map (fun t => t.teamId)).Pairwise (· < ·) ∧
    (∀ t ∈ buildTeams agents,
      t.members.Perm
        ((assignTeamIds agents).filter (fun x => teamKey x == t.teamId))) := by
  have hkeyroot : ∀ r ∈ agents, r.parentAgentPid = none →
      teamKey { r with teamId := teamOf agents r } = r.pid := by
    intro r hrm hrp
    have hd0 : r.depth = 0 := (hInv.2.1 r hrm).mp hrp
    unfold teamKey teamOf
    rw [if_pos hd0]
    rfl
  have hmapid : (buildTeams agents).map (fun t => t.teamId) =
      List.insertionSort (fun x y => x ≤ y)
        ((assignTeamIds agents).map teamKey).dedup := by
    unfold buildTeams
    rw [List.map_map]
    exact List.map_id'' (congrFun rfl) _
  have hroots_nodup :
      ((agents.filter (fun a => a.parentAgentPid = none)).map
        (fun a => a.pid)).Nodup :=
    hInv.1.sublist ((List.filter_sublist agents).map (fun a => a.pid))
  have hmem : ∀ z, z ∈ ((assignTeamIds agents).map teamKey).dedup ↔
      z ∈ (agents.filter (fun a => a.parentAgentPid = none)).map
        (fun a => a.pid) := by
    intro z
    rw [List.mem_dedup, List.mem_map, List.mem_map]
    constructor
    · rintro ⟨x, hx, rfl⟩
      obtain ⟨a, ha, rfl⟩ := assign_mem.mp hx
      obtain ⟨r, -, hrp, hrm, hkey⟩ := teamKey_assign hInv ha
      exact ⟨r, List.mem_filter.mpr ⟨hrm, by simp [hrp]⟩, hkey.symm⟩
    · rintro ⟨r, hrf, rfl⟩
      obtain ⟨hrm, hrp⟩ := List.mem_filter.mp hrf
      have hrp' : r.parentAgentPid = none := by simpa using hrp
      exact ⟨{ r with teamId := teamOf agents r },
        assign_mem.mpr ⟨r, hrm, rfl⟩, hkeyroot r hrm hrp'⟩
  have hperm_kd : ((assignTeamIds agents).map teamKey).dedup.Perm
      ((agents.filter (fun a => a.parentAgentPid = none)).map
        (fun a => a.pid)) :=
    (List.perm_ext_iff_of_nodup (List.nodup_dedup _) hroots_nodup).mpr hmem
  refine ⟨?_, ?_, ?_, ?_⟩
  · intro a ha
    obtain ⟨r, h1, h2, -, h3, h4, h5⟩ := teamOf_spec hInv a ha
    exact ⟨r, h1, h2, h3, fun hp => by rw [h3, h4 hp], h5⟩
  · rw [hmapid]
    exact (List.perm_insertionSort _ _).trans hperm_kd
  · rw [hmapid]
    have hsorted : (List.insertionSort (fun x y => x ≤ y)
        ((assignTeamIds agents).map teamKey).dedup).Pairwise
        (fun x y => x ≤ y) :=
      List.sorted_insertionSort _ _
    have hnd : (List.insertionSort (fun x y => x ≤ y)
        ((assignTeamIds agents).map teamKey).dedup).Nodup :=
      (List.perm_insertionSort _ _).nodup_iff.mpr (List.nodup_dedup _)
    exact (hsorted.and hnd).imp (fun h => lt_of_le_of_ne h.1 h.2)
  · intro t ht
    unfold buildTeams at ht
    rw [List.mem_map] at ht
    obtain ⟨tid, -, rfl⟩ := ht
    have hIT := teamFilter_inv hInv tid
    exact (List.perm_ext_iff_of_nodup (walkTree_nodup hIT _ _)
      (hIT.1.of_map _)).mpr (fun x => mem_buildAgentTree hIT x)

/-- Witness for C3's theorem: two teams (root 5 with child 2; solo root 3),
sorted ascending by team id with members in tree order. -/
theorem buildTeams_spec_witness :
    (buildTeams demoTeams).map
        (fun t => (t.teamId, t.members.map (fun a => a.pid))) =
      [(3, [3]), (5, [5, 2])] := by
  have h := buildTeams_spec demoTeams (by decide)
  decide

/-- Witness for C1's theorem on the three-agent demo snapshot (root, child,
orphan with absent parent 99): the child resolves to depth 1 and the orphan
is promoted to root. -/
theorem computeDepths_spec_witness :
    (computeDepths demoAgents).map (fun a => (a.pid, a.parentAgentPid, a.depth)) =
      [(1, none, 0), (2, some 1, 1), (3, none, 0)] := by
  have h := computeDepths_spec demoAgents (by decide)
  decide

end AgentWatch
